import Mathlib

/-!
Verification development for an RCPSP (resource-constrained project
scheduling) solver core.  The Rust source consists of consumption
profiles (piecewise-constant remaining-capacity step lists), a partial
schedule state, a DD problem description (domain enumeration and
combined transition) and a relaxation (merge).  Machine integers
(`isize`) are modelled as `Int` with the explicit sentinel
`isizeMAX = 2^63 - 1`; bit-sets (`FixedBitSet`) are modelled as
`Finset ℕ`; vectors as `List`.  Rust functions that can panic
(out-of-bounds indexing) are modelled either with `Option` or with an
explicitly documented junk branch that is unreachable under the
invariants assumed by the corresponding claims.
-/

namespace Rcpsp

/-- The `isize::MAX` sentinel, used by the source as "+∞" on the time axis. -/
def isizeMAX : Int := 2 ^ 63 - 1

/-- The `isize::MIN` bound, used only by saturating addition. -/
def isizeMIN : Int := -(2 ^ 63)

/-- Rust `isize::saturating_add`, clamping the mathematical sum into the
`isize` range. -/
def satAdd (a b : Int) : Int := max isizeMIN (min isizeMAX (a + b))

/-- One step of a consumption profile: the half-open interval
`[start, stop)` with remaining capacity `rem_capacity` throughout.
The source field `end` is renamed `stop` because `end` is a Lean keyword. -/
structure Step where
  start : Int
  stop : Int
  rem_capacity : Int
deriving DecidableEq, Repr

/-- Remaining capacity of a step list at time `t`: the capacity of the
first step whose `stop` lies beyond `t`; the final step is interpreted
as unbounded, matching the `+∞` sentinel semantics of the source.  This
is the observation function used by the spec's `rem(t)`. -/
def remAt : List Step → Int → Int
  | [], _ => 0
  | [a], _ => a.rem_capacity
  | a :: b :: r, t => if t < a.stop then a.rem_capacity else remAt (b :: r) t

/-- A step list is contiguous from time `t`: the first step starts at `t`,
every step is non-degenerate (`start < stop`), and each step's `stop` is
the next step's `start`. -/
def chainFrom (t : Int) : List Step → Bool
  | [] => true
  | s :: r => t == s.start && decide (s.start < s.stop) && chainFrom s.stop r

/-- The `stop` of the last step, or the given default for an empty list. -/
def lastStopD (l : List Step) (d : Int) : Int := (l.getLastD ⟨0, d, 0⟩).stop

/-- Adjacent steps always carry distinct capacities (run-length-compressed
canonical form as required by spec §3). -/
def capsDistinct : List Step → Bool
  | a :: b :: r => decide (a.rem_capacity ≠ b.rem_capacity) && capsDistinct (b :: r)
  | _ => true

/-- A contiguous profile in the sense of the spec: non-empty, starting at
time 0, contiguous non-degenerate steps, last `stop` equal to the `+∞`
sentinel. -/
def ContigProfile (l : List Step) : Prop :=
  l ≠ [] ∧ chainFrom 0 l = true ∧ lastStopD l 0 = isizeMAX

/-- A canonical profile per spec §3: contiguous and run-length-compressed. -/
def CanonicalProfile (l : List Step) : Prop :=
  ContigProfile l ∧ capsDistinct l = true

instance (l : List Step) : Decidable (ContigProfile l) := by
  unfold ContigProfile; infer_instance

instance (l : List Step) : Decidable (CanonicalProfile l) := by
  unfold CanonicalProfile; infer_instance

/-- Translation of `ConsumptionProfile::forward_by`'s shift loop: subtract
`delta` from every step's `start` and `stop`. -/
def shiftSteps (l : List Step) (delta : Int) : List Step :=
  l.map fun s => { s with start := s.start - delta, stop := s.stop - delta }

/-- Overwrite the `stop` of the last step (the source writes
`steps[last].end = isize::MAX`). -/
def setLastStop (v : Int) : List Step → List Step
  | [] => []
  | [a] => [{ a with stop := v }]
  | a :: b :: r => a :: setLastStop v (b :: r)

/-- Translation of `ConsumptionProfile::forward_by` (state.rs): drop every
step with `stop ≤ delta`, clamp the first surviving start to `delta`,
shift all steps down by `delta`, and restore the last `stop` to the
sentinel.  The source indexes `steps[0]` unconditionally after the drops
and so panics if every step was dropped; that unreachable branch (the
last step's `stop` is the sentinel in every reachable profile) is
modelled as `[]`. -/
def forward_by (l : List Step) (delta : Int) : List Step :=
  match l.dropWhile fun s => decide (s.stop ≤ delta) with
  | [] => []
  | h :: t => setLastStop isizeMAX (shiftSteps ({ h with start := delta } :: t) delta)

/-- Translation of the step-surgery loop shared by
`ConsumptionProfile::add_consumption` (state.rs) and the per-resource
body of `Rcpsp::add_job_consumption` (model.rs): subtract `c` from the
remaining capacity of every step overlapping `[start_time, end_time)`,
splitting steps whose boundary falls strictly inside the interval.  The
loop walks the deque while `steps[i].start < end_time`; the branches
"interval contained in step" and "step contains end of interval" break
out of the loop, leaving the remaining steps untouched. -/
def addConsumptionSteps (start_time end_time c : Int) : List Step → List Step
  | [] => []
  | st :: rest =>
    if st.start < end_time then
      if start_time < st.stop ∧ end_time > st.start then
        if start_time ≤ st.start ∧ end_time ≥ st.stop then
          { st with rem_capacity := st.rem_capacity - c } ::
            addConsumptionSteps start_time end_time c rest
        else if start_time ≥ st.start ∧ end_time ≤ st.stop then
          (if start_time ≠ st.start then
            [{ st with stop := start_time },
             ⟨start_time, end_time, st.rem_capacity - c⟩]
          else
            [{ st with stop := end_time, rem_capacity := st.rem_capacity - c }]) ++
          (if end_time ≠ st.stop then [⟨end_time, st.stop, st.rem_capacity⟩] else []) ++
          rest
        else if start_time > st.start then
          { st with stop := start_time } ::
            ⟨start_time, st.stop, st.rem_capacity - c⟩ ::
            addConsumptionSteps start_time end_time c rest
        else if end_time < st.stop then
          { st with stop := end_time, rem_capacity := st.rem_capacity - c } ::
            ⟨end_time, st.stop, st.rem_capacity⟩ :: rest
        else
          st :: addConsumptionSteps start_time end_time c rest
      else
        st :: addConsumptionSteps start_time end_time c rest
    else
      st :: rest

/-- Translation of `ConsumptionProfile::add_consumption` (state.rs):
`end_time = start_time + duration`, then the surgery loop. -/
def cp_add_consumption (l : List Step) (start_time duration c : Int) : List Step :=
  addConsumptionSteps start_time (start_time + duration) c l

/-- The RCPSP partial-schedule state.  The consumption profiles are the
field called `profile` in state.rs and `consumption` in model.rs and
relax.rs (the source ships two divergent versions of the module; the
model.rs name is used here). -/
structure StateL where
  done : Finset ℕ
  maybe_done : Option (Finset ℕ)
  consumption : List (List Step)
  earliest : List Int
  depth : ℕ
deriving DecidableEq

/-- Loop body of `State::add_consumption` (state.rs): for each resource
index `i` with `consumption[i] > 0`, apply the profile surgery to
`profile[i]`. -/
def addConsumptionVec (start_time duration : Int) :
    List (List Step) → List Int → List (List Step)
  | ps, [] => ps
  | [], _ :: _ => []
  | p :: ps, c :: cs =>
    (if c > 0 then cp_add_consumption p start_time duration c else p) ::
      addConsumptionVec start_time duration ps cs

/-- Translation of `State::add_consumption` (state.rs): when
`duration > 0`, apply the profile surgery to each resource whose
consumption entry is positive. -/
def State.add_consumption (s : StateL) (start_time duration : Int)
    (consumption : List Int) : StateL :=
  if duration > 0 then
    { s with consumption := addConsumptionVec start_time duration s.consumption consumption }
  else s

/-- Translation of the first prefix loop of
`ConsumptionProfile::merge_consumption_profile`: emit the steps of `l`
that start before `bound`, clipping their `stop` to `bound`, stopping at
the first step that starts at or after `bound`. -/
def clipBefore (bound : Int) : List Step → List Step
  | [] => []
  | a :: t =>
    if a.start < bound then
      ⟨a.start, min a.stop bound, a.rem_capacity⟩ :: clipBefore bound t
    else []

/-- Translation of the main sweep of
`ConsumptionProfile::merge_consumption_profile`: walk both step lists,
emit one step per overlap sub-interval carrying the larger remaining
capacity, and advance whichever list's current step ends first (ties
advance the second list). -/
def mergeSweep : List Step → List Step → List Step
  | [], _ => []
  | _ :: _, [] => []
  | a :: as, b :: bs =>
    let s := max a.start b.start
    let e := min a.stop b.stop
    let rest :=
      if a.stop < b.stop then mergeSweep as (b :: bs) else mergeSweep (a :: as) bs
    if e > s then ⟨s, e, max a.rem_capacity b.rem_capacity⟩ :: rest else rest
termination_by a b => a.length + b.length

/-- Translation of the canonicalization loop closing
`merge_consumption_profile`: fuse consecutive steps sharing the same
remaining capacity. -/
def canonSteps : List Step → List Step
  | [] => []
  | [a] => [a]
  | a :: b :: t =>
    if a.rem_capacity = b.rem_capacity then canonSteps ({ a with stop := b.stop } :: t)
    else a :: canonSteps (b :: t)
termination_by l => l.length

/-- Translation of `ConsumptionProfile::merge_consumption_profile`
(state.rs), whose per-resource body is repeated verbatim as
`RcpspRelax::merge_consumption` (relax.rs): two clipped prefixes for the
regions covered by only one input, the overlap sweep, then
canonicalization.  The source reads `steps[0]` of both inputs
unconditionally and so panics when either is empty; that branch is
modelled as `[]`. -/
def merge_consumption_profile (p q : List Step) : List Step :=
  match p, q with
  | ph :: _, qh :: _ =>
    canonSteps (clipBefore qh.start p ++ clipBefore ph.start q ++ mergeSweep p q)
  | _, _ => []


/-- The RCPSP instance (instance.rs).  The per-job per-resource
consumption vector is called `consumption` in instance.rs but read as
`weight` by model.rs (the source ships divergent module versions); the
model.rs name is used.  Successor sets are `HashSet`s iterated in an
unspecified order, modelled as lists; predecessor sets are bit-sets used
only for subset tests, modelled as `Finset`. -/
structure RcpspInstanceL where
  n_jobs : ℕ
  n_resources : ℕ
  predecessors : List (Finset ℕ)
  successors_set : List (List ℕ)
  duration : List Int
  weight : List (List Int)
  capacity : List Int
deriving DecidableEq

/-- The problem wrapper (model.rs `Rcpsp`): the instance together with the
precomputed topological order.  The source field `instance` is renamed
`inst` because `instance` is a Lean keyword; the cached `initial` state is
reconstructed by `initialState`. -/
structure RcpspL where
  inst : RcpspInstanceL
  topo_order : List ℕ
deriving DecidableEq

/-- Inner loop of the precedence push-forward used by `Rcpsp::new` and by
the propagation loop of `combined_transition`:
`earliest[j] = max(earliest[j], earliest[i] + dur)` for each successor
`j` of `i`, reading `earliest[i]` live at each iteration. -/
def propagatePrec (e : List Int) (i : ℕ) (js : List ℕ) (dur : Int) : List Int :=
  js.foldl (fun e j => e.set j (max (e.getD j 0) (e.getD i 0 + dur))) e

/-- Loop of `combined_transition` raising each successor of the scheduled
job to at least `end_time`: `earliest[i] = max(earliest[i], v)`. -/
def raiseTo (v : Int) (e : List Int) (js : List ℕ) : List Int :=
  js.foldl (fun e j => e.set j (max (e.getD j 0) v)) e

/-- Translation of the state construction in `Rcpsp::new` (model.rs): one
full-capacity step per resource, empty `done`, no `maybe_done`, zero
`earliest`, depth 0, then the precedence-only push-forward of earliest
start times along the given topological order. -/
def initialState (pb : RcpspL) : StateL :=
  { done := ∅
    maybe_done := none
    consumption := (List.range pb.inst.n_resources).map fun i =>
      [⟨0, isizeMAX, pb.inst.capacity.getD i 0⟩]
    earliest := pb.topo_order.foldl
      (fun e i => propagatePrec e i (pb.inst.successors_set.getD i [])
        (pb.inst.duration.getD i 0))
      (List.replicate pb.inst.n_jobs 0)
    depth := 0 }

/-- Translation of the per-resource interval scan of
`Rcpsp::compute_start_time` (model.rs): sweep the steps with an optional
open interval, closing it at the first step with insufficient capacity
(keeping it only when at least `dur` long) and opening a new one (to the
sentinel) at the first step with sufficient capacity; a still-open
interval is kept at the end. -/
def buildResourceIntervals (weight dur : Int) :
    List Step → Option (Int × Int) → List (Int × Int)
  | [], cur => match cur with | some c => [c] | none => []
  | stp :: rest, some cur =>
    if stp.rem_capacity < weight then
      (if stp.start - cur.1 ≥ dur then [(cur.1, stp.start)] else []) ++
        buildResourceIntervals weight dur rest none
    else buildResourceIntervals weight dur rest (some cur)
  | stp :: rest, none =>
    if stp.rem_capacity ≥ weight then
      buildResourceIntervals weight dur rest (some (stp.start, isizeMAX))
    else buildResourceIntervals weight dur rest none

/-- Translation of `Rcpsp::restrict_intervals` (model.rs): intersect two
interval lists by a two-pointer sweep, keeping overlaps of length at
least `dur`. -/
def restrictIntervals (dur : Int) : List (Int × Int) → List (Int × Int) → List (Int × Int)
  | [], _ => []
  | _ :: _, [] => []
  | a :: as, b :: bs =>
    let s := max a.1 b.1
    let e := min a.2 b.2
    (if e - s ≥ dur then [(s, e)] else []) ++
      (if a.2 < b.2 then restrictIntervals dur as (b :: bs)
       else restrictIntervals dur (a :: as) bs)
termination_by a b => a.length + b.length

/-- Translation of `Rcpsp::compute_start_time` (model.rs): starting from
the single interval `[earliest, +∞)`, restrict by each resource's
feasible intervals (skipping zero-weight resources) and return the start
of the first surviving interval.  The source indexes `intervals[0]`
unconditionally and panics when no interval survives; that branch is
modelled as 0. -/
def compute_start_time (pb : RcpspL) (consumption : List (List Step)) (job : ℕ)
    (earliest : Int) : Int :=
  let dur := pb.inst.duration.getD job 0
  let intervals := (List.range pb.inst.n_resources).foldl
    (fun acc i =>
      let w := (pb.inst.weight.getD job []).getD i 0
      if w = 0 then acc
      else restrictIntervals dur acc
        (buildResourceIntervals w dur (consumption.getD i []) none))
    [(earliest, isizeMAX)]
  match intervals with
  | [] => 0
  | h :: _ => h.1

/-- Per-resource loop of `Rcpsp::add_job_consumption` (model.rs): apply
the step surgery with the job's weight to each resource with non-zero
weight. -/
def applyWeights (start_time end_time : Int) :
    List (List Step) → List Int → List (List Step)
  | ps, [] => ps
  | [], _ :: _ => []
  | p :: ps, w :: ws =>
    (if w = 0 then p else addConsumptionSteps start_time end_time w p) ::
      applyWeights start_time end_time ps ws

/-- Translation of `Rcpsp::add_job_consumption` (model.rs): no-op when the
job has zero duration, otherwise the per-resource surgery with the job's
weights. -/
def add_job_consumption (pb : RcpspL) (consumption : List (List Step)) (job : ℕ)
    (start_time : Int) : List (List Step) :=
  let end_time := start_time + pb.inst.duration.getD job 0
  if start_time = end_time then consumption
  else applyWeights start_time end_time consumption (pb.inst.weight.getD job [])

/-- Translation of `Rcpsp::forward_to` (model.rs): per resource, exactly
the `forward_by` surgery (the model.rs copy guards the first-start clamp
against emptiness, a branch reachable only where `forward_by` would
panic; both are modelled as `[]` there). -/
def forward_to (consumption : List (List Step)) (earliest : Int) : List (List Step) :=
  consumption.map fun p => forward_by p earliest

/-- One iteration of the earliest-start propagation loop of
`Rcpsp::combined_transition` (model.rs): skip a job already done;
otherwise refine `earliest[i]` by the placement query, fold it into
`earliest_not_done`, and, unless `i` is maybe-done, push forward to its
successors. -/
def transitionPropagateBody (pb : RcpspL) (done : Finset ℕ)
    (maybe_done : Option (Finset ℕ)) (consumption : List (List Step))
    (acc : List Int × Int) (i : ℕ) : List Int × Int :=
  if i ∈ done then acc
  else
    let v := acc.1.set i (compute_start_time pb consumption i (acc.1.getD i 0))
    let nd := min acc.2 (v.getD i 0)
    match maybe_done with
    | some maybe =>
      if i ∈ maybe then (v, nd)
      else (propagatePrec v i (pb.inst.successors_set.getD i [])
        (pb.inst.duration.getD i 0), nd)
    | none => (propagatePrec v i (pb.inst.successors_set.getD i [])
        (pb.inst.duration.getD i 0), nd)

/-- Translation of the earliest-start propagation loop of
`Rcpsp::combined_transition` (model.rs): fold the body over the
topological order; returns the final vector and `earliest_not_done`
(seeded with the `isize::MAX` sentinel). -/
def transitionPropagate (pb : RcpspL) (done : Finset ℕ)
    (maybe_done : Option (Finset ℕ)) (consumption : List (List Step))
    (init : List Int) : List Int × Int :=
  pb.topo_order.foldl (transitionPropagateBody pb done maybe_done consumption)
    (init, isizeMAX)

/-- The placement start time computed by `combined_transition` for the
chosen job (model.rs line `compute_start_time(&state.consumption, d,
state.earliest[d])`). -/
def transStartTime (pb : RcpspL) (s : StateL) (d : ℕ) : Int :=
  compute_start_time pb s.consumption d (s.earliest.getD d 0)

/-- The corresponding end time, `start_time + duration[d]`. -/
def transEndTime (pb : RcpspL) (s : StateL) (d : ℕ) : Int :=
  transStartTime pb s d + pb.inst.duration.getD d 0

/-- The earliest-start vector of `combined_transition` as it stands when
the edge cost is read, together with `earliest_not_done`: after clearing
`earliest[d]` to 0, pushing the successors of `d` to its end time, and
propagating along the topological order (skipped at the last layer,
where `earliest_not_done` is forced to 0); before the forward shift. -/
def transAfterProp (pb : RcpspL) (s : StateL) (d : ℕ) : List Int × Int :=
  let e1 := raiseTo (transEndTime pb s d) (s.earliest.set d 0)
    (pb.inst.successors_set.getD d [])
  if s.depth = pb.inst.n_jobs - 1 then (e1, (0 : Int))
  else transitionPropagate pb (insert d s.done)
    (s.maybe_done.map fun m => insert d m)
    (add_job_consumption pb s.consumption d (transStartTime pb s d)) e1

/-- Translation of `Rcpsp::combined_transition` (model.rs): insert the
decision into `done` (and `maybe_done` when present), place the job and
add its consumption, run the earliest pipeline (`transAfterProp`), read
the edge cost off the sink's earliest, then normalize by the forward
shift when `earliest_not_done > 0`. -/
def combined_transition (pb : RcpspL) (s : StateL) (d : ℕ) : StateL × Int :=
  let consumption := add_job_consumption pb s.consumption d (transStartTime pb s d)
  let pe := transAfterProp pb s d
  let cost := s.earliest.getD (pb.inst.n_jobs - 1) 0 - pe.1.getD (pb.inst.n_jobs - 1) 0
  let final := if pe.2 > 0 then
      (forward_to consumption pe.2, pe.1.map fun t => if t > 0 then t - pe.2 else t)
    else (consumption, pe.1)
  ({ done := insert d s.done, maybe_done := s.maybe_done.map fun m => insert d m,
     consumption := final.1, earliest := final.2, depth := s.depth + 1 }, cost)

/-- Modelled from the spec: the sink's earliest start after earliest-time
propagation (spec §4.3 transition step 3) but before clearing
`earliest[j]` to 0 (spec step 5) and before the forward shift (spec step
6) — the quantity the spec's edge-cost formula refers to.  The pipeline
is identical to `transAfterProp` except that `earliest[d]` is not
cleared. -/
def specSinkEarliestNoClear (pb : RcpspL) (s : StateL) (d : ℕ) : Int :=
  let e1 := raiseTo (transEndTime pb s d) s.earliest
    (pb.inst.successors_set.getD d [])
  let pe := if s.depth = pb.inst.n_jobs - 1 then (e1, (0 : Int))
    else transitionPropagate pb (insert d s.done)
      (s.maybe_done.map fun m => insert d m)
      (add_job_consumption pb s.consumption d (transStartTime pb s d)) e1
  pe.1.getD (pb.inst.n_jobs - 1) 0

/-- Translation of `Rcpsp::for_each_in_domain` (model.rs), returning the
list of decision values in the order the callback is invoked (a
`FixedBitSet::ones` iteration is ascending): jobs not done whose
predecessors all lie in `done` (exact branch, `|done| == depth`) or in
`done ∪ maybe_done` (relaxed branch); no decision is produced when
`|done| ≠ depth` and `maybe_done` is absent. -/
def for_each_in_domain (pb : RcpspL) (s : StateL) : List ℕ :=
  let not_done := (List.range pb.inst.n_jobs).filter fun i => decide (i ∉ s.done)
  if s.done.card = s.depth then
    not_done.filter fun i => decide (pb.inst.predecessors.getD i ∅ ⊆ s.done)
  else
    match s.maybe_done with
    | some maybe =>
      not_done.filter fun i => decide (pb.inst.predecessors.getD i ∅ ⊆ s.done ∪ maybe)
    | none => []

/-- Translation of `RcpspRelax::merge_consumption` (relax.rs): the
per-resource profile merge, whose body is the same step sweep as
`merge_consumption_profile`. -/
def merge_consumption (pb : RcpspL) (a b : List (List Step)) : List (List Step) :=
  (List.range pb.inst.n_resources).map fun r =>
    merge_consumption_profile (a.getD r []) (b.getD r [])

/-- Translation of the earliest-merge loop of `RcpspRelax::merge`
(relax.rs): for every job index `i` not in the state's `done` bit-set,
`earliest[i] = min(earliest[i], state.earliest[i])`. -/
def mergeEarliest : ℕ → List Int → Finset ℕ → List Int → List Int
  | _, [], _, _ => []
  | i, e :: es, sdone, se =>
    (if i ∈ sdone then e else min e (se.getD i 0)) :: mergeEarliest (i + 1) es sdone se

/-- Accumulator of `RcpspRelax::merge` (relax.rs): the local mutable
variables of the fold over the input states. -/
structure MergeAcc where
  done : Finset ℕ
  maybe_done : Finset ℕ
  consumption : List (List Step)
  earliest : List Int
  depth : ℕ

/-- Fold body of `RcpspRelax::merge` (relax.rs). -/
def mergeStep (pb : RcpspL) (acc : MergeAcc) (s : StateL) : MergeAcc :=
  { done := acc.done ∩ s.done
    maybe_done := (acc.maybe_done ∪ s.done) ∪
      (match s.maybe_done with | some m => m | none => ∅)
    consumption := merge_consumption pb acc.consumption s.consumption
    earliest := mergeEarliest 0 acc.earliest s.done s.earliest
    depth := max acc.depth s.depth }

/-- Initial accumulator of `RcpspRelax::merge` (relax.rs): the full `done`
bit-set (`toggle_range` after `with_capacity`), empty `maybe_done`, one
zero-capacity sentinel step per resource, `earliest` filled with the
`isize::MAX` sentinel, depth 0. -/
def mergeInit (pb : RcpspL) : MergeAcc :=
  { done := Finset.range pb.inst.n_jobs
    maybe_done := ∅
    consumption := (List.range pb.inst.n_resources).map fun _ => [⟨0, isizeMAX, 0⟩]
    earliest := List.replicate pb.inst.n_jobs isizeMAX
    depth := 0 }

/-- Translation of `RcpspRelax::merge` (relax.rs): fold all input states
over `mergeInit`, then finish with `maybe_done ^= done` (symmetric
difference). -/
def merge (pb : RcpspL) (states : List StateL) : StateL :=
  let a := states.foldl (mergeStep pb) (mergeInit pb)
  { done := a.done
    maybe_done := some ((a.maybe_done \ a.done) ∪ (a.done \ a.maybe_done))
    consumption := a.consumption
    earliest := a.earliest
    depth := a.depth }

/-- Result of running `State::get_earliest_start` (state.rs) in the
fueled embedding: a returned value, a panic (out-of-bounds step
indexing), or exhausted fuel for the outer fixpoint loop. -/
inductive GesResult where
  | ok (v : Int)
  | panic
  | fuelOut
deriving DecidableEq, Repr

/-- Translation of the inner advance loop of `State::get_earliest_start`:
`while steps[index].end <= earliest || steps[index].rem_capacity <
consumption { index += 1 }` — the offset of the first step past
`earliest` with enough capacity, or `none` when the walk would run past
the end of the deque (an out-of-bounds panic in the source). -/
def gesFind (e c : Int) : List Step → Option ℕ
  | [] => none
  | st :: rest =>
    if st.stop ≤ e ∨ st.rem_capacity < c then (gesFind e c rest).map (· + 1)
    else some 0

/-- Translation of the accumulation loop of `State::get_earliest_start`:
starting from the found step, saturating-add the usable span
`end - max(start, earliest)` of each consecutive step with enough
capacity; returns `(true, _)` when the accumulated time reaches the
duration, `(false, j)` with the offset of the blocking step otherwise,
and `none` when the walk indexes past the end (a panic in the source). -/
def gesCumul (e dur c : Int) (acc : Int) : List Step → Option (Bool × ℕ)
  | [] => none
  | st :: rest =>
    if st.rem_capacity ≥ c then
      let acc2 := satAdd acc (st.stop - max st.start e)
      if acc2 ≥ dur then some (true, 0)
      else
        match gesCumul e dur c acc2 rest with
        | none => none
        | some (b, j) => some (b, j + 1)
    else some (false, 0)

/-- Translation of the per-resource retry loop of
`State::get_earliest_start` (`loop { find; cumul; if enough break else
index = j + 1 }`), on the suffix of the profile starting at the current
index.  The fuel argument only bounds the retries; every retry drops at
least one step, so `length + 1` fuel (as supplied by `gesResource`) is
always sufficient and the 0-fuel branch is unreachable. -/
def gesResourceAux (e dur c : Int) : ℕ → List Step → Option ℕ
  | 0, _ => none
  | fuel + 1, l =>
    match gesFind e c l with
    | none => none
    | some p =>
      match gesCumul e dur c 0 (l.drop p) with
      | none => none
      | some (true, _) => some p
      | some (false, j) =>
        (gesResourceAux e dur c fuel (l.drop (p + j + 1))).map (· + (p + j + 1))

/-- The per-resource loop with its sufficient fuel budget. -/
def gesResource (e dur c : Int) (l : List Step) : Option ℕ :=
  gesResourceAux e dur c (l.length + 1) l

/-- Translation of the `for (i, profile)` pass of
`State::get_earliest_start` over the resources paired with their
consumption entries and current indices: skip zero-consumption
resources, run the per-resource loop from the suffix at the stored
index, and break with `moved = true` (leaving later indices untouched)
as soon as a resource's found step starts after the candidate. -/
def gesPass (dur : Int) : List (List Step × Int) → List ℕ → Int →
    Option (List ℕ × Int × Bool)
  | [], _, e => some ([], e, false)
  | _ :: _, [], e => some ([], e, false)
  | (steps, c) :: rest, ix :: ixs, e =>
    if c = 0 then
      match gesPass dur rest ixs e with
      | none => none
      | some (idxs, e2, m) => some (ix :: idxs, e2, m)
    else
      match gesResource e dur c (steps.drop ix) with
      | none => none
      | some p =>
        match (steps.drop (ix + p)).head? with
        | none => none
        | some st =>
          if st.start > e then some ((ix + p) :: ixs, st.start, true)
          else
            match gesPass dur rest ixs e with
            | none => none
            | some (idxs, e2, m) => some ((ix + p) :: idxs, e2, m)

/-- Translation of the outer fixpoint loop of
`State::get_earliest_start`: repeat passes while the candidate moved. -/
def gesRun (dur : Int) (resources : List (List Step × Int)) :
    ℕ → List ℕ → Int → GesResult
  | 0, _, _ => .fuelOut
  | fuel + 1, idx, e =>
    match gesPass dur resources idx e with
    | none => .panic
    | some (idx2, e2, moved) =>
      if moved then gesRun dur resources fuel idx2 e2 else .ok e2

/-- Translation of `State::get_earliest_start` (state.rs): run the
fixpoint from all-zero indices over the resources zipped with their
consumption entries. -/
def get_earliest_start (fuel : ℕ) (profile : List (List Step))
    (earliest duration : Int) (consumption : List Int) : GesResult :=
  gesRun duration (profile.zip consumption) fuel
    (List.replicate profile.length 0) earliest

/-- The property C10 asserts of `get_earliest_start`: some fuel makes the
outer loop terminate with a returned value (no out-of-bounds indexing)
at least the given candidate `earliest`. -/
def GesTerminatesGE (profile : List (List Step)) (earliest duration : Int)
    (consumption : List Int) : Prop :=
  ∃ (fuel : ℕ) (v : Int),
    get_earliest_start fuel profile earliest duration consumption = .ok v ∧
    earliest ≤ v

/-- Contiguity of a step list with unconstrained first start: every step
is non-degenerate and each step's `stop` is the next step's `start`. -/
def chainAny : List Step → Bool
  | [] => true
  | [s] => decide (s.start < s.stop)
  | a :: b :: r => decide (a.start < a.stop) && decide (a.stop = b.start) && chainAny (b :: r)

/-- The `start` of the first step, or 0 for an empty list. -/
def headStartD (l : List Step) : Int := (l.headD ⟨0, 0, 0⟩).start

/-- The `stop` of the first step, or 0 for an empty list. -/
def headStopD (l : List Step) : Int := (l.headD ⟨0, 0, 0⟩).stop

/-- Invariant tying a resource (step list and consumption entry) to its
current index in `get_earliest_start`: either the resource is skipped
(zero consumption) or the index stays within the profile, which is
contiguous, ends at the sentinel with enough remaining capacity for the
consumption, and whose last start leaves room for the duration. -/
def ResInv (dur : Int) (r : List Step × Int) (ix : ℕ) : Prop :=
  r.2 = 0 ∨ (ix < r.1.length ∧ chainAny r.1 = true ∧ lastStopD r.1 0 = isizeMAX ∧
    r.2 ≤ (r.1.getLastD ⟨0, 0, 0⟩).rem_capacity ∧
    (r.1.getLastD ⟨0, 0, 0⟩).start + dur ≤ isizeMAX)

/-- Upper bound on every candidate `earliest` produced during
`get_earliest_start`: the largest last-step start over the resources. -/
def gesBound (R : List (List Step × Int)) : Int :=
  R.foldl (fun acc r => max acc ((r.1.getLastD ⟨0, 0, 0⟩).start)) 0

/-- Concrete two-job instance (source job 0 with successor 1, the sink;
no resources) used by witnesses and counterexamples. -/
def cxInst2 : RcpspInstanceL := ⟨2, 0, [∅, {0}], [[1], []], [0, 5], [[], []], []⟩

/-- Problem wrapper for `cxInst2` with its topological order. -/
def cxPb2 : RcpspL := ⟨cxInst2, [0, 1]⟩

/-- Concrete state on `cxPb2` with job 0 done. -/
def cxSa : StateL := ⟨{0}, none, [], [0, 3], 1⟩

/-- Concrete state on `cxPb2` with job 1 done. -/
def cxSb : StateL := ⟨{1}, none, [], [7, 0], 1⟩

/-- Concrete four-job instance: source 0 with successors 1 and 2, job 1
(duration 5) preceding the sink 3, job 2 independent; no resources. -/
def cxInst4 : RcpspInstanceL :=
  ⟨4, 0, [∅, {0}, {0}, {1}], [[1, 2], [3], [], []], [0, 5, 3, 0], [[], [], [], []], []⟩

/-- Problem wrapper for `cxInst4` with its topological order. -/
def cxPb4 : RcpspL := ⟨cxInst4, [0, 1, 2, 3]⟩

/-- Concrete state on `cxPb4` after scheduling jobs 0 and 1, where the
sink (job 3) is a feasible decision while job 2 is still open. -/
def cxS2 : StateL := ⟨{0, 1}, none, [], [0, 0, 0, 5], 2⟩

theorem setLastStop_ne_nil {v : Int} {l : List Step} (h : l ≠ []) :
    setLastStop v l ≠ [] := by
  cases l with
  | nil => exact absurd rfl h
  | cons a t => cases t <;> simp [setLastStop]

theorem remAt_setLastStop (v : Int) (l : List Step) (t : Int) :
    remAt (setLastStop v l) t = remAt l t := by
  induction l with
  | nil => rfl
  | cons a t ih =>
    cases t with
    | nil => rfl
    | cons b r =>
      have hne : setLastStop v (b :: r) ≠ [] := setLastStop_ne_nil (by simp)
      obtain ⟨x, xs, hx⟩ := List.exists_cons_of_ne_nil hne
      simp only [setLastStop, remAt, hx]
      rw [← hx, ih]

theorem remAt_shiftSteps (l : List Step) (d t : Int) :
    remAt (shiftSteps l d) t = remAt l (t + d) := by
  induction l with
  | nil => rfl
  | cons a t' ih =>
    cases t' with
    | nil => rfl
    | cons b r =>
      simp only [shiftSteps, List.map_cons] at ih ⊢
      simp only [remAt]
      by_cases hc : t + d < a.stop
      · rw [if_pos (by omega : t < a.stop - d), if_pos hc]
      · rw [if_neg (by omega : ¬ t < a.stop - d), if_neg hc]
        exact ih

theorem remAt_head_start (h : Step) (v : Int) (tl : List Step) (t : Int) :
    remAt ({ h with start := v } :: tl) t = remAt (h :: tl) t := by
  cases tl <;> rfl

theorem lastStopD_cons (a b : Step) (r : List Step) (d : Int) :
    lastStopD (a :: b :: r) d = lastStopD (b :: r) d := by
  simp [lastStopD, List.getLastD]

theorem lastStopD_setLastStop (v : Int) {l : List Step} (h : l ≠ []) :
    lastStopD (setLastStop v l) 0 = v := by
  induction l with
  | nil => exact absurd rfl h
  | cons a t ih =>
    cases t with
    | nil => rfl
    | cons b r =>
      have h2 := setLastStop_ne_nil (v := v) (l := b :: r) (by simp)
      obtain ⟨x, xs, hx⟩ := List.exists_cons_of_ne_nil h2
      show lastStopD (a :: setLastStop v (b :: r)) 0 = v
      rw [hx, lastStopD_cons, ← hx]
      exact ih (by simp)

theorem dropWhile_stop_ne_nil {l : List Step} {delta : Int} (hne : l ≠ [])
    (hlast : lastStopD l 0 = isizeMAX) (hd : delta < isizeMAX) :
    l.dropWhile (fun s => decide (s.stop ≤ delta)) ≠ [] := by
  induction l with
  | nil => exact absurd rfl hne
  | cons a t ih =>
    cases t with
    | nil =>
      have : a.stop = isizeMAX := by simpa [lastStopD, List.getLastD] using hlast
      simp [List.dropWhile, this, not_le.mpr hd]
    | cons b r =>
      rw [lastStopD_cons] at hlast
      by_cases h : a.stop ≤ delta
      · simpa [List.dropWhile, h] using ih (by simp) hlast
      · simp [List.dropWhile, h]

theorem remAt_dropWhile_stop {l : List Step} {delta y : Int}
    (hlast : lastStopD l 0 = isizeMAX) (hd : delta < isizeMAX) (hy : delta ≤ y) :
    remAt (l.dropWhile (fun s => decide (s.stop ≤ delta))) y = remAt l y := by
  induction l with
  | nil => rfl
  | cons a t ih =>
    cases t with
    | nil =>
      have : a.stop = isizeMAX := by simpa [lastStopD, List.getLastD] using hlast
      simp [List.dropWhile, this, not_le.mpr hd]
    | cons b r =>
      rw [lastStopD_cons] at hlast
      by_cases h : a.stop ≤ delta
      · rw [List.dropWhile_cons_of_pos (by simpa using h), ih hlast]
        have : ¬ y < a.stop := by omega
        simp [remAt, this]
      · rw [List.dropWhile_cons_of_neg (by simpa using h)]

/-- C7.  For every canonical profile and every `delta` with
`0 ≤ delta < +∞`, `forward_by delta` yields a profile whose first step
starts at 0, whose last step ends at the `+∞` sentinel, and whose
remaining capacity at any `t ≥ 0` equals the original remaining
capacity at `t + delta`. -/
theorem forward_by_spec (p : List Step) (delta : Int) (hp : ContigProfile p)
    (h0 : 0 ≤ delta) (hlt : delta < isizeMAX) :
    ((forward_by p delta).headD ⟨1, 1, 1⟩).start = 0 ∧
    lastStopD (forward_by p delta) 0 = isizeMAX ∧
    ∀ t : Int, 0 ≤ t → remAt (forward_by p delta) t = remAt p (t + delta) := by
  obtain ⟨hne, -, hlast⟩ := hp
  have hdw : p.dropWhile (fun s => decide (s.stop ≤ delta)) ≠ [] :=
    dropWhile_stop_ne_nil hne hlast hlt
  obtain ⟨h, tl, hcons⟩ := List.exists_cons_of_ne_nil hdw
  have hfwd : forward_by p delta =
      setLastStop isizeMAX (shiftSteps ({ h with start := delta } :: tl) delta) := by
    unfold forward_by
    rw [hcons]
  refine ⟨?_, ?_, ?_⟩
  · rw [hfwd]
    have hsh : shiftSteps ({ h with start := delta } :: tl) delta =
        ⟨delta - delta, h.stop - delta, h.rem_capacity⟩ :: shiftSteps tl delta := by
      simp [shiftSteps]
    rw [hsh]
    cases htl : shiftSteps tl delta with
    | nil => simp [setLastStop]
    | cons x xs => simp [setLastStop]
  · rw [hfwd]
    exact lastStopD_setLastStop isizeMAX (by simp [shiftSteps])
  · intro t ht
    rw [hfwd, remAt_setLastStop, remAt_shiftSteps, remAt_head_start, ← hcons,
      remAt_dropWhile_stop hlast hlt (by omega)]

/-- Witness for `forward_by_spec` at the concrete profile
`[0,5)↦2, [5,+∞)↦3` with `delta = 2` and `t = 4`. -/
theorem forward_by_spec_witness :
    ContigProfile [⟨0, 5, 2⟩, ⟨5, isizeMAX, 3⟩] ∧
    remAt (forward_by [⟨0, 5, 2⟩, ⟨5, isizeMAX, 3⟩] 2) 4 =
      remAt [⟨0, 5, 2⟩, ⟨5, isizeMAX, 3⟩] 6 :=
  ⟨by decide,
   (forward_by_spec [⟨0, 5, 2⟩, ⟨5, isizeMAX, 3⟩] 2 (by decide) (by decide)
      (by decide)).2.2 4 (by decide)⟩

theorem getD_set_self {l : List Int} {d : ℕ} (v : Int) (h : d < l.length) :
    (l.set d v).getD d 0 = v := by
  induction l generalizing d with
  | nil => simp at h
  | cons a t ih =>
    cases d with
    | zero => rfl
    | succ n => exact ih (by simpa using h)

theorem getD_set_ne {l : List Int} {d j : ℕ} (v : Int) (h : j ≠ d) :
    (l.set d v).getD j 0 = l.getD j 0 := by
  induction l generalizing d j with
  | nil => rfl
  | cons a t ih =>
    cases d with
    | zero => cases j with
      | zero => exact absurd rfl h
      | succ m => rfl
    | succ n => cases j with
      | zero => rfl
      | succ m => exact ih fun hc => h (by omega)

theorem getD_map_zero {f : Int → Int} (hf : f 0 = 0) (l : List Int) (j : ℕ) :
    (l.map f).getD j 0 = f (l.getD j 0) := by
  induction l generalizing j with
  | nil => simpa using hf.symm
  | cons a t ih =>
    cases j with
    | zero => rfl
    | succ n => exact ih n

theorem raiseTo_getD_not_mem (v : Int) (js : List ℕ) :
    ∀ (e : List Int) (j : ℕ), j ∉ js → (raiseTo v e js).getD j 0 = e.getD j 0 := by
  induction js with
  | nil => intro e j _; rfl
  | cons k ks ih =>
    intro e j hj
    have h1 : j ≠ k := fun hc => hj (by simp [hc])
    have h2 : j ∉ ks := fun hc => hj (by simp [hc])
    show (raiseTo v (e.set k _) ks).getD j 0 = e.getD j 0
    rw [ih _ j h2, getD_set_ne _ h1]

theorem propagatePrec_getD_not_mem (i : ℕ) (dur : Int) (js : List ℕ) :
    ∀ (e : List Int) (j : ℕ), j ∉ js → (propagatePrec e i js dur).getD j 0 = e.getD j 0 := by
  induction js with
  | nil => intro e j _; rfl
  | cons k ks ih =>
    intro e j hj
    have h1 : j ≠ k := fun hc => hj (by simp [hc])
    have h2 : j ∉ ks := fun hc => hj (by simp [hc])
    show (propagatePrec (e.set k _) i ks dur).getD j 0 = e.getD j 0
    rw [ih _ j h2, getD_set_ne _ h1]

theorem foldl_min_mem (l : List Int) : ∀ a : Int, l.foldl min a ∈ a :: l := by
  induction l with
  | nil => intro a; simp
  | cons x xs ih =>
    intro a
    rw [List.foldl_cons]
    rcases List.mem_cons.mp (ih (min a x)) with h | h
    · rw [h]
      rcases min_choice a x with hc | hc <;> rw [hc] <;> simp
    · exact List.mem_cons.mpr (Or.inr (List.mem_cons.mpr (Or.inr h)))

theorem foldl_min_le (l : List Int) : ∀ a : Int,
    (∀ x ∈ l, l.foldl min a ≤ x) ∧ l.foldl min a ≤ a := by
  induction l with
  | nil => intro a; simp
  | cons x xs ih =>
    intro a
    obtain ⟨h1, h2⟩ := ih (min a x)
    rw [List.foldl_cons]
    refine ⟨?_, le_trans h2 (min_le_left _ _)⟩
    intro y hy
    rcases List.mem_cons.mp hy with h | h
    · subst h; exact le_trans h2 (min_le_right _ _)
    · exact h1 y h

theorem foldl_max_mem (l : List ℕ) : ∀ a : ℕ, l.foldl max a ∈ a :: l := by
  induction l with
  | nil => intro a; simp
  | cons x xs ih =>
    intro a
    rw [List.foldl_cons]
    rcases List.mem_cons.mp (ih (max a x)) with h | h
    · rw [h]
      rcases max_choice a x with hc | hc <;> rw [hc] <;> simp
    · exact List.mem_cons.mpr (Or.inr (List.mem_cons.mpr (Or.inr h)))

theorem foldl_max_ge (l : List ℕ) : ∀ a : ℕ,
    (∀ x ∈ l, x ≤ l.foldl max a) ∧ a ≤ l.foldl max a := by
  induction l with
  | nil => intro a; simp
  | cons x xs ih =>
    intro a
    obtain ⟨h1, h2⟩ := ih (max a x)
    rw [List.foldl_cons]
    refine ⟨?_, le_trans (le_max_left _ _) h2⟩
    intro y hy
    rcases List.mem_cons.mp hy with h | h
    · subst h; exact le_trans (le_max_right _ _) h2
    · exact h1 y h

theorem getD_replicate (n j : ℕ) (a : Int) :
    (List.replicate n a).getD j 0 = if j < n then a else 0 := by
  induction n generalizing j with
  | zero => simp
  | succ m ih =>
    cases j with
    | zero => simp [List.replicate]
    | succ k => simpa [List.replicate, Nat.succ_lt_succ_iff] using ih k

theorem mergeEarliest_length (sd : Finset ℕ) (se : List Int) :
    ∀ (e : List Int) (k : ℕ), (mergeEarliest k e sd se).length = e.length := by
  intro e
  induction e with
  | nil => intro k; rfl
  | cons a t ih => intro k; simpa [mergeEarliest] using ih (k + 1)

theorem mergeEarliest_getD_lt (sd : Finset ℕ) (se : List Int) :
    ∀ (e : List Int) (k j : ℕ), j < e.length →
      (mergeEarliest k e sd se).getD j 0 =
        if (k + j) ∈ sd then e.getD j 0 else min (e.getD j 0) (se.getD (k + j) 0) := by
  intro e
  induction e with
  | nil => intro k j h; simp at h
  | cons a t ih =>
    intro k j h
    cases j with
    | zero => simp [mergeEarliest]
    | succ n =>
      simp only [mergeEarliest, List.getD_cons_succ]
      rw [ih (k + 1) n (by simpa using h)]
      have hn : k + 1 + n = k + (n + 1) := by omega
      rw [hn]

theorem mergeStep_earliest_length (pb : RcpspL) (acc : MergeAcc) (s : StateL) :
    (mergeStep pb acc s).earliest.length = acc.earliest.length :=
  mergeEarliest_length _ _ _ _

theorem mergeFold_done (pb : RcpspL) (states : List StateL) :
    ∀ (acc : MergeAcc) (j : ℕ),
      j ∈ (states.foldl (mergeStep pb) acc).done ↔
        j ∈ acc.done ∧ ∀ s ∈ states, j ∈ s.done := by
  induction states with
  | nil => intro acc j; simp
  | cons s rest ih =>
    intro acc j
    rw [List.foldl_cons, ih]
    simp only [mergeStep, Finset.mem_inter, List.mem_cons]
    constructor
    · rintro ⟨⟨h1, h2⟩, h3⟩
      exact ⟨h1, fun x hx => hx.elim (fun he => he ▸ h2) (h3 x)⟩
    · rintro ⟨h1, h2⟩
      exact ⟨⟨h1, h2 s (Or.inl rfl)⟩, fun x hx => h2 x (Or.inr hx)⟩

theorem mergeFold_maybe (pb : RcpspL) (states : List StateL) :
    ∀ (acc : MergeAcc) (j : ℕ),
      j ∈ (states.foldl (mergeStep pb) acc).maybe_done ↔
        j ∈ acc.maybe_done ∨ ∃ s ∈ states,
          (j ∈ s.done ∨ ∃ m, s.maybe_done = some m ∧ j ∈ m) := by
  induction states with
  | nil => intro acc j; simp
  | cons s rest ih =>
    intro acc j
    rw [List.foldl_cons, ih]
    cases hm : s.maybe_done with
    | none =>
      simp only [mergeStep, hm, Finset.mem_union, Finset.not_mem_empty, List.mem_cons]
      constructor
      · rintro (((h | h) | h) | h)
        · exact Or.inl h
        · exact Or.inr ⟨s, Or.inl rfl, Or.inl h⟩
        · exact h.elim
        · obtain ⟨x, hx, hj⟩ := h
          exact Or.inr ⟨x, Or.inr hx, hj⟩
      · rintro (h | ⟨x, hx | hx, hj⟩)
        · exact Or.inl (Or.inl (Or.inl h))
        · subst hx
          rcases hj with h | ⟨m, hm2, -⟩
          · exact Or.inl (Or.inl (Or.inr h))
          · rw [hm] at hm2; cases hm2
        · exact Or.inr ⟨x, hx, hj⟩
    | some m =>
      simp only [mergeStep, hm, Finset.mem_union, List.mem_cons]
      constructor
      · rintro (((h | h) | h) | h)
        · exact Or.inl h
        · exact Or.inr ⟨s, Or.inl rfl, Or.inl h⟩
        · exact Or.inr ⟨s, Or.inl rfl, Or.inr ⟨m, hm, h⟩⟩
        · obtain ⟨x, hx, hj⟩ := h
          exact Or.inr ⟨x, Or.inr hx, hj⟩
      · rintro (h | ⟨x, hx | hx, hj⟩)
        · exact Or.inl (Or.inl (Or.inl h))
        · subst hx
          rcases hj with h | ⟨m2, hm2, hjm⟩
          · exact Or.inl (Or.inl (Or.inr h))
          · rw [hm] at hm2
            cases hm2
            exact Or.inl (Or.inr hjm)
        · exact Or.inr ⟨x, hx, hj⟩

theorem mergeFold_depth (pb : RcpspL) (states : List StateL) :
    ∀ acc : MergeAcc, (states.foldl (mergeStep pb) acc).depth =
      (states.map StateL.depth).foldl max acc.depth := by
  induction states with
  | nil => intro acc; rfl
  | cons s rest ih => intro acc; rw [List.foldl_cons, ih]; rfl

theorem mergeFold_earliest (pb : RcpspL) (states : List StateL) :
    ∀ (acc : MergeAcc) (j : ℕ), j < acc.earliest.length →
      (states.foldl (mergeStep pb) acc).earliest.getD j 0 =
        ((states.filter fun s => decide (j ∉ s.done)).map
          fun s => s.earliest.getD j 0).foldl min (acc.earliest.getD j 0) := by
  induction states with
  | nil => intro acc j _; rfl
  | cons s rest ih =>
    intro acc j hj
    rw [List.foldl_cons,
      ih _ j (by rw [mergeStep_earliest_length]; exact hj)]
    have hstep : (mergeStep pb acc s).earliest.getD j 0 =
        if j ∈ s.done then acc.earliest.getD j 0
        else min (acc.earliest.getD j 0) (s.earliest.getD j 0) := by
      show (mergeEarliest 0 acc.earliest s.done s.earliest).getD j 0 = _
      rw [mergeEarliest_getD_lt _ _ _ 0 j hj]
      simp
    by_cases hd : j ∈ s.done
    · rw [List.filter_cons_of_neg (by simpa using hd), hstep, if_pos hd]
    · rw [List.filter_cons_of_pos (by simpa using hd), List.map_cons, List.foldl_cons,
        hstep, if_neg hd]

/-- C3.  For a non-empty input collection, `merge` returns the
intersection of the `done` sets, `maybe_done` equal to the union of all
`done` and `maybe_done` sets minus the merged `done` (hence disjoint
from it), and the maximum input depth. -/
theorem merge_shape_spec (pb : RcpspL) (states : List StateL) (hne : states ≠ []) :
    (∀ j : ℕ, j ∈ (merge pb states).done ↔
      (j < pb.inst.n_jobs ∧ ∀ s ∈ states, j ∈ s.done)) ∧
    (∀ j : ℕ, j ∈ (merge pb states).maybe_done.getD ∅ ↔
      ((∃ s ∈ states, (j ∈ s.done ∨ ∃ m, s.maybe_done = some m ∧ j ∈ m)) ∧
        j ∉ (merge pb states).done)) ∧
    Disjoint ((merge pb states).maybe_done.getD ∅) (merge pb states).done ∧
    (∀ s ∈ states, s.depth ≤ (merge pb states).depth) ∧
    (∃ s ∈ states, (merge pb states).depth = s.depth) := by
  obtain ⟨s0, hs0⟩ : ∃ s, s ∈ states := by
    cases states with
    | nil => exact absurd rfl hne
    | cons a l => exact ⟨a, List.mem_cons_self a l⟩
  have hDrfl : (merge pb states).done =
      (states.foldl (mergeStep pb) (mergeInit pb)).done := rfl
  have hMrfl : (merge pb states).maybe_done.getD ∅ =
      ((states.foldl (mergeStep pb) (mergeInit pb)).maybe_done \
        (states.foldl (mergeStep pb) (mergeInit pb)).done) ∪
      ((states.foldl (mergeStep pb) (mergeInit pb)).done \
        (states.foldl (mergeStep pb) (mergeInit pb)).maybe_done) := rfl
  have hdone : ∀ j : ℕ, j ∈ (merge pb states).done ↔
      (j < pb.inst.n_jobs ∧ ∀ s ∈ states, j ∈ s.done) := by
    intro j
    rw [hDrfl, mergeFold_done]
    simp [mergeInit]
  have hmaybe : ∀ j : ℕ, j ∈ (merge pb states).maybe_done.getD ∅ ↔
      ((∃ s ∈ states, (j ∈ s.done ∨ ∃ m, s.maybe_done = some m ∧ j ∈ m)) ∧
        j ∉ (merge pb states).done) := by
    intro j
    have hUiff : j ∈ (List.foldl (mergeStep pb) (mergeInit pb) states).maybe_done ↔
        ∃ s ∈ states, (j ∈ s.done ∨ ∃ m, s.maybe_done = some m ∧ j ∈ m) := by
      rw [show List.foldl (mergeStep pb) (mergeInit pb) states =
        states.foldl (mergeStep pb) (mergeInit pb) from rfl, mergeFold_maybe]
      simp [mergeInit]
    have hDiff : j ∈ (List.foldl (mergeStep pb) (mergeInit pb) states).done ↔
        (j < pb.inst.n_jobs ∧ ∀ s ∈ states, j ∈ s.done) := by
      rw [show List.foldl (mergeStep pb) (mergeInit pb) states =
        states.foldl (mergeStep pb) (mergeInit pb) from rfl, mergeFold_done]
      simp [mergeInit, Finset.mem_range]
    rw [hMrfl, Finset.mem_union, Finset.mem_sdiff, Finset.mem_sdiff, hUiff, hDrfl]
    constructor
    · rintro (⟨h1, h2⟩ | ⟨h1, h2⟩)
      · exact ⟨h1, h2⟩
      · exact absurd ⟨s0, hs0, Or.inl ((hDiff.mp h1).2 s0 hs0)⟩ h2
    · rintro ⟨h1, h2⟩
      exact Or.inl ⟨h1, h2⟩
  have hd : (merge pb states).depth = (states.map StateL.depth).foldl max 0 := by
    rw [show (merge pb states).depth =
      (states.foldl (mergeStep pb) (mergeInit pb)).depth from rfl, mergeFold_depth]
    rfl
  refine ⟨hdone, hmaybe, ?_, ?_, ?_⟩
  · rw [Finset.disjoint_left]
    intro j hj
    exact ((hmaybe j).mp hj).2
  · intro s hs
    rw [hd]
    exact (foldl_max_ge _ _).1 s.depth (List.mem_map_of_mem _ hs)
  · rcases List.mem_cons.mp (foldl_max_mem (states.map StateL.depth) 0) with h | h
    · refine ⟨s0, hs0, ?_⟩
      have hle := (foldl_max_ge (states.map StateL.depth) 0).1 s0.depth
        (List.mem_map_of_mem _ hs0)
      omega
    · obtain ⟨s, hs, hsd⟩ := List.mem_map.mp h
      exact ⟨s, hs, by rw [hd, hsd]⟩

theorem foldl_min_result (L : List Int) (hne : L ≠ []) (hb : ∀ x ∈ L, x ≤ isizeMAX) :
    L.foldl min isizeMAX ∈ L ∧ ∀ x ∈ L, L.foldl min isizeMAX ≤ x := by
  obtain ⟨y, hy⟩ := List.exists_mem_of_ne_nil L hne
  have hle := foldl_min_le L isizeMAX
  refine ⟨?_, hle.1⟩
  rcases List.mem_cons.mp (foldl_min_mem L isizeMAX) with h | h
  · have h1 := hle.1 y hy
    have h2 := hb y hy
    have h3 : L.foldl min isizeMAX = y := by omega
    rw [h3]
    exact hy
  · exact h

/-- C2.  For a non-empty input collection and a job `j` not in the merged
`done` set, the merged `earliest[j]` is the minimum of `earliest[j]`
over exactly the inputs in which `j` is not done (inputs with `j` done
do not constrain the minimum). -/
theorem merge_earliest_getD (pb : RcpspL) (states : List StateL) (j : ℕ)
    (hj : j < pb.inst.n_jobs) :
    (merge pb states).earliest.getD j 0 =
      ((states.filter fun s => decide (j ∉ s.done)).map
        fun s => s.earliest.getD j 0).foldl min isizeMAX := by
  rw [show (merge pb states).earliest =
    (states.foldl (mergeStep pb) (mergeInit pb)).earliest from rfl,
    mergeFold_earliest pb states _ j (by simp [mergeInit, hj])]
  congr 1
  simpa [mergeInit] using (getD_replicate pb.inst.n_jobs j isizeMAX).trans (if_pos hj)

theorem merge_earliest_spec (pb : RcpspL) (states : List StateL) (j : ℕ)
    (hne : states ≠ []) (hj : j < pb.inst.n_jobs)
    (hnd : j ∉ (merge pb states).done)
    (hbound : ∀ s ∈ states, s.earliest.getD j 0 ≤ isizeMAX) :
    (merge pb states).earliest.getD j 0 ∈
      ((states.filter fun s => decide (j ∉ s.done)).map fun s => s.earliest.getD j 0) ∧
    ∀ x ∈ ((states.filter fun s => decide (j ∉ s.done)).map
      fun s => s.earliest.getD j 0),
      (merge pb states).earliest.getD j 0 ≤ x := by
  have hval := merge_earliest_getD pb states j hj
  have hex : ∃ s ∈ states, j ∉ s.done := by
    by_contra hc
    push_neg at hc
    refine hnd ?_
    rw [show (merge pb states).done =
      (states.foldl (mergeStep pb) (mergeInit pb)).done from rfl, mergeFold_done]
    simpa [mergeInit, Finset.mem_range, hj] using hc
  obtain ⟨s1, hs1, hs1d⟩ := hex
  have hmem1 : s1.earliest.getD j 0 ∈
      ((states.filter fun s => decide (j ∉ s.done)).map fun s => s.earliest.getD j 0) :=
    List.mem_map_of_mem _ (List.mem_filter.mpr ⟨hs1, by simpa using hs1d⟩)
  have hres := foldl_min_result
    ((states.filter fun s => decide (j ∉ s.done)).map fun s => s.earliest.getD j 0)
    (List.ne_nil_of_mem hmem1)
    (by
      intro x hx
      obtain ⟨s2, hs2, hx2⟩ := List.mem_map.mp hx
      exact hx2 ▸ hbound s2 (List.mem_filter.mp hs2).1)
  rw [hval]
  exact hres

/-- C5.  `for_each_in_domain` produces each feasible decision exactly
once: the jobs `i < n_jobs` not in `done` whose predecessors all lie in
`done` when `|done| = depth`, and in `done ∪ maybe_done` otherwise (with
`maybe_done` present). -/
theorem for_each_in_domain_spec (pb : RcpspL) (s : StateL) :
    (for_each_in_domain pb s).Nodup ∧
    ∀ i : ℕ, i ∈ for_each_in_domain pb s ↔
      (i < pb.inst.n_jobs ∧ i ∉ s.done ∧
        ((s.done.card = s.depth ∧ pb.inst.predecessors.getD i ∅ ⊆ s.done) ∨
         (s.done.card ≠ s.depth ∧ ∃ m, s.maybe_done = some m ∧
           pb.inst.predecessors.getD i ∅ ⊆ s.done ∪ m))) := by
  constructor
  · unfold for_each_in_domain
    split
    · exact (List.nodup_range _).filter _ |>.filter _
    · cases s.maybe_done with
      | none => simp
      | some m => exact (List.nodup_range _).filter _ |>.filter _
  · intro i
    unfold for_each_in_domain
    by_cases hc : s.done.card = s.depth
    · simp only [if_pos hc, List.mem_filter, List.mem_range, decide_eq_true_eq]
      constructor
      · rintro ⟨⟨h1, h2⟩, h3⟩
        exact ⟨h1, h2, Or.inl ⟨hc, h3⟩⟩
      · rintro ⟨h1, h2, h3 | h3⟩
        · exact ⟨⟨h1, h2⟩, h3.2⟩
        · exact absurd hc h3.1
    · rw [if_neg hc]
      cases hm : s.maybe_done with
      | none =>
        simp only [List.not_mem_nil, false_iff]
        rintro ⟨-, -, h3 | h3⟩
        · exact hc h3.1
        · obtain ⟨m, hm2, -⟩ := h3.2
          simp [hm] at hm2
      | some m =>
        simp only [List.mem_filter, List.mem_range, decide_eq_true_eq]
        constructor
        · rintro ⟨⟨h1, h2⟩, h3⟩
          exact ⟨h1, h2, Or.inr ⟨hc, m, rfl, h3⟩⟩
        · rintro ⟨h1, h2, h3 | h3⟩
          · exact absurd h3.1 hc
          · obtain ⟨-, m2, hm2, h4⟩ := h3
            cases hm2
            exact ⟨⟨h1, h2⟩, h4⟩

theorem addConsumptionVec_getD (st d : Int) (ps : List (List Step)) :
    ∀ (cs : List Int) (r : ℕ), cs.getD r 0 = 0 →
      (addConsumptionVec st d ps cs).getD r [] = ps.getD r [] := by
  induction ps with
  | nil =>
    intro cs r _
    cases cs <;> simp [addConsumptionVec]
  | cons p ps ih =>
    intro cs r hr
    cases cs with
    | nil => rfl
    | cons c cs =>
      cases r with
      | zero =>
        have hc : c = 0 := by simpa using hr
        simp [addConsumptionVec, hc]
      | succ n =>
        simp only [addConsumptionVec, List.getD_cons_succ]
        exact ih cs n (by simpa using hr)

/-- C9 counterexample.  The profile-level `add_consumption` is not a
no-op when `duration == 0`: on the single-step profile `[0,+∞)↦3`,
`add_consumption(2, 0, 1)` splits the step and inserts a zero-width
step, changing the step sequence. -/
theorem add_consumption_noop_counterexample :
    cp_add_consumption [⟨0, isizeMAX, 3⟩] 2 0 1 ≠ [⟨0, isizeMAX, 3⟩] := by decide

/-- C9 amended.  The state-level `add_consumption` (which guards
`duration > 0` and skips resources with non-positive consumption) leaves
the state unchanged when `duration == 0`, and leaves resource `r`'s
profile unchanged when `consumption[r] == 0`; the unguarded
profile-level operation can split steps in those cases. -/
theorem add_consumption_noop_amended (s : StateL) (start_time duration : Int)
    (consumption : List Int) :
    (duration = 0 → State.add_consumption s start_time duration consumption = s) ∧
    (∀ r : ℕ, consumption.getD r 0 = 0 →
      (State.add_consumption s start_time duration consumption).consumption.getD r [] =
        s.consumption.getD r []) := by
  constructor
  · intro h
    simp [State.add_consumption, h]
  · intro r h
    unfold State.add_consumption
    by_cases hd : duration > 0
    · simpa [hd] using addConsumptionVec_getD start_time duration s.consumption consumption r h
    · simp [hd]

/-- Witness for `add_consumption_noop_amended` at a concrete state with a
single resource. -/
theorem add_consumption_noop_amended_witness :
    (State.add_consumption ⟨∅, none, [[⟨0, isizeMAX, 3⟩]], [0], 0⟩ 2 0 [1] =
      ⟨∅, none, [[⟨0, isizeMAX, 3⟩]], [0], 0⟩) ∧
    ((State.add_consumption ⟨∅, none, [[⟨0, isizeMAX, 3⟩]], [0], 0⟩ 2 5 [0]).consumption.getD 0 [] =
      [[⟨0, isizeMAX, 3⟩]].getD 0 []) :=
  ⟨(add_consumption_noop_amended _ 2 0 [1]).1 rfl,
   (add_consumption_noop_amended ⟨∅, none, [[⟨0, isizeMAX, 3⟩]], [0], 0⟩ 2 5 [0]).2 0 rfl⟩

theorem foldl_preserve {α β : Type _} (P : α → Prop) (f : α → β → α)
    (hf : ∀ a b, P a → P (f a b)) : ∀ (l : List β) (a : α), P a → P (l.foldl f a) := by
  intro l
  induction l with
  | nil => intro a h; exact h
  | cons x xs ih => intro a h; exact ih _ (hf a x h)

theorem getD_set_oob {l : List Int} {k : ℕ} (v : Int) (h : l.length ≤ k) :
    (l.set k v).getD k 0 = l.getD k 0 := by
  rw [List.set_eq_of_length_le h]

theorem set_agree {d : ℕ} (k : ℕ) (w1 w2 : Int)
    {e1 e2 : List Int} (hlen : e1.length = e2.length)
    (hoff : ∀ j, j ≠ d → e1.getD j 0 = e2.getD j 0)
    (hw : k ≠ d → w1 = w2) :
    (e1.set k w1).length = (e2.set k w2).length ∧
    ∀ j, j ≠ d → (e1.set k w1).getD j 0 = (e2.set k w2).getD j 0 := by
  refine ⟨by simp [hlen], ?_⟩
  intro j hj
  by_cases hjk : j = k
  · subst hjk
    by_cases hb : j < e1.length
    · rw [getD_set_self _ hb, getD_set_self _ (hlen ▸ hb)]
      exact hw hj
    · rw [getD_set_oob _ (by omega), getD_set_oob _ (by omega)]
      exact hoff j hj
  · rw [getD_set_ne _ hjk, getD_set_ne _ hjk]
    exact hoff j hj

theorem raiseTo_agree (v : Int) (js : List ℕ) (d : ℕ) :
    ∀ {e1 e2 : List Int}, e1.length = e2.length →
      (∀ j, j ≠ d → e1.getD j 0 = e2.getD j 0) →
      (raiseTo v e1 js).length = (raiseTo v e2 js).length ∧
      ∀ j, j ≠ d → (raiseTo v e1 js).getD j 0 = (raiseTo v e2 js).getD j 0 := by
  induction js with
  | nil => intro e1 e2 h1 h2; exact ⟨h1, h2⟩
  | cons k ks ih =>
    intro e1 e2 h1 h2
    have hstep := set_agree (d := d) k (max (e1.getD k 0) v) (max (e2.getD k 0) v)
      h1 h2 (fun hk => by rw [h2 k hk])
    exact ih hstep.1 hstep.2

theorem propagatePrec_agree (i : ℕ) (dur : Int) (js : List ℕ) (d : ℕ) (hid : i ≠ d) :
    ∀ {e1 e2 : List Int}, e1.length = e2.length →
      (∀ j, j ≠ d → e1.getD j 0 = e2.getD j 0) →
      (propagatePrec e1 i js dur).length = (propagatePrec e2 i js dur).length ∧
      ∀ j, j ≠ d →
        (propagatePrec e1 i js dur).getD j 0 = (propagatePrec e2 i js dur).getD j 0 := by
  induction js with
  | nil => intro e1 e2 h1 h2; exact ⟨h1, h2⟩
  | cons k ks ih =>
    intro e1 e2 h1 h2
    have hstep := set_agree (d := d) k (max (e1.getD k 0) (e1.getD i 0 + dur))
      (max (e2.getD k 0) (e2.getD i 0 + dur)) h1 h2
      (fun hk => by rw [h2 k hk, h2 i hid])
    exact ih hstep.1 hstep.2

theorem transitionPropagateBody_agree (pb : RcpspL) (done : Finset ℕ)
    (maybe : Option (Finset ℕ)) (cons : List (List Step)) (d : ℕ) (hd : d ∈ done)
    (i : ℕ) {a1 a2 : List Int × Int} (hnd : a1.2 = a2.2)
    (hlen : a1.1.length = a2.1.length)
    (hoff : ∀ j, j ≠ d → a1.1.getD j 0 = a2.1.getD j 0) :
    (transitionPropagateBody pb done maybe cons a1 i).2 =
      (transitionPropagateBody pb done maybe cons a2 i).2 ∧
    (transitionPropagateBody pb done maybe cons a1 i).1.length =
      (transitionPropagateBody pb done maybe cons a2 i).1.length ∧
    ∀ j, j ≠ d → (transitionPropagateBody pb done maybe cons a1 i).1.getD j 0 =
      (transitionPropagateBody pb done maybe cons a2 i).1.getD j 0 := by
  unfold transitionPropagateBody
  by_cases hi : i ∈ done
  · simp only [if_pos hi]
    exact ⟨hnd, hlen, hoff⟩
  · have hid : i ≠ d := fun hc => hi (hc ▸ hd)
    simp only [if_neg hi]
    have hc : compute_start_time pb cons i (a1.1.getD i 0) =
        compute_start_time pb cons i (a2.1.getD i 0) := by rw [hoff i hid]
    have hv := set_agree (d := d) i (compute_start_time pb cons i (a1.1.getD i 0))
      (compute_start_time pb cons i (a2.1.getD i 0)) hlen hoff (fun _ => hc)
    have hvi : (a1.1.set i (compute_start_time pb cons i (a1.1.getD i 0))).getD i 0 =
        (a2.1.set i (compute_start_time pb cons i (a2.1.getD i 0))).getD i 0 :=
      hv.2 i hid
    have hnd2 : min a1.2 ((a1.1.set i (compute_start_time pb cons i (a1.1.getD i 0))).getD i 0) =
        min a2.2 ((a2.1.set i (compute_start_time pb cons i (a2.1.getD i 0))).getD i 0) := by
      rw [hnd, hvi]
    cases maybe with
    | none =>
      have hp := propagatePrec_agree i (pb.inst.duration.getD i 0)
        (pb.inst.successors_set.getD i []) d hid hv.1 hv.2
      exact ⟨hnd2, hp.1, hp.2⟩
    | some m =>
      by_cases him : i ∈ m
      · simp only [if_pos him]
        exact ⟨hnd2, hv.1, hv.2⟩
      · simp only [if_neg him]
        have hp := propagatePrec_agree i (pb.inst.duration.getD i 0)
          (pb.inst.successors_set.getD i []) d hid hv.1 hv.2
        exact ⟨hnd2, hp.1, hp.2⟩

theorem transitionPropagate_agree (pb : RcpspL) (done : Finset ℕ)
    (maybe : Option (Finset ℕ)) (cons : List (List Step)) (d : ℕ) (hd : d ∈ done)
    {e1 e2 : List Int} (hlen : e1.length = e2.length)
    (hoff : ∀ j, j ≠ d → e1.getD j 0 = e2.getD j 0) :
    (transitionPropagate pb done maybe cons e1).2 =
      (transitionPropagate pb done maybe cons e2).2 ∧
    ∀ j, j ≠ d → (transitionPropagate pb done maybe cons e1).1.getD j 0 =
      (transitionPropagate pb done maybe cons e2).1.getD j 0 := by
  unfold transitionPropagate
  suffices h : ∀ (order : List ℕ) (a1 a2 : List Int × Int), a1.2 = a2.2 →
      a1.1.length = a2.1.length → (∀ j, j ≠ d → a1.1.getD j 0 = a2.1.getD j 0) →
      (order.foldl (transitionPropagateBody pb done maybe cons) a1).2 =
        (order.foldl (transitionPropagateBody pb done maybe cons) a2).2 ∧
      (order.foldl (transitionPropagateBody pb done maybe cons) a1).1.length =
        (order.foldl (transitionPropagateBody pb done maybe cons) a2).1.length ∧
      ∀ j, j ≠ d →
        (order.foldl (transitionPropagateBody pb done maybe cons) a1).1.getD j 0 =
          (order.foldl (transitionPropagateBody pb done maybe cons) a2).1.getD j 0 by
    have := h pb.topo_order (e1, isizeMAX) (e2, isizeMAX) rfl hlen hoff
    exact ⟨this.1, this.2.2⟩
  intro order
  induction order with
  | nil => intro a1 a2 h1 h2 h3; exact ⟨h1, h2, h3⟩
  | cons i rest ih =>
    intro a1 a2 h1 h2 h3
    have hb := transitionPropagateBody_agree pb done maybe cons d hd i h1 h2 h3
    exact ih _ _ hb.1 hb.2.1 hb.2.2

/-- C4 amended.  The edge cost of `combined_transition` is
`old.earliest[sink] - new.earliest[sink]` where `new.earliest[sink]` is
read after the propagation and after clearing `earliest[j]` (which the
code performs before propagating, not after the cost as the spec orders
it); provided the chosen job is not the sink itself, this coincides with
the spec's formula (sink earliest after propagation, before the clear). -/
theorem transition_cost_spec (pb : RcpspL) (s : StateL) (d : ℕ)
    (hd : d ≠ pb.inst.n_jobs - 1) :
    (combined_transition pb s d).2 =
      s.earliest.getD (pb.inst.n_jobs - 1) 0 - specSinkEarliestNoClear pb s d := by
  have hrfl : (combined_transition pb s d).2 =
      s.earliest.getD (pb.inst.n_jobs - 1) 0 -
        (transAfterProp pb s d).1.getD (pb.inst.n_jobs - 1) 0 := rfl
  rw [hrfl]
  congr 1
  have hbase : ∀ j, j ≠ d → (s.earliest.set d 0).getD j 0 = s.earliest.getD j 0 :=
    fun j hj => getD_set_ne _ hj
  have hblen : (s.earliest.set d 0).length = s.earliest.length := by simp
  have hr := raiseTo_agree (transEndTime pb s d) (pb.inst.successors_set.getD d [])
    d hblen hbase
  unfold transAfterProp specSinkEarliestNoClear
  by_cases hdep : s.depth = pb.inst.n_jobs - 1
  · simp only [if_pos hdep]
    exact hr.2 _ (fun hc => hd hc.symm)
  · simp only [if_neg hdep]
    have hp := transitionPropagate_agree pb (insert d s.done)
      (s.maybe_done.map fun m => insert d m)
      (add_job_consumption pb s.consumption d (transStartTime pb s d)) d
      (Finset.mem_insert_self d _) hr.1 hr.2
    exact hp.2 _ (fun hc => hd hc.symm)

/-- Witness for `transition_cost_spec` at the concrete four-job instance,
scheduling the non-sink job 2. -/
theorem transition_cost_spec_witness :
    (combined_transition cxPb4 cxS2 2).2 =
      cxS2.earliest.getD (cxPb4.inst.n_jobs - 1) 0 -
        specSinkEarliestNoClear cxPb4 cxS2 2 :=
  transition_cost_spec cxPb4 cxS2 2 (by decide)

/-- C4 counterexample.  Scheduling the sink itself (job 3, feasible at
`cxS2` while job 2 is still open) yields edge cost 5, but the spec's
formula — sink earliest after propagation and before the clear — gives
0, because the code clears `earliest[sink]` before reading the cost. -/
theorem transition_cost_counterexample :
    3 ∈ for_each_in_domain cxPb4 cxS2 ∧
    (combined_transition cxPb4 cxS2 3).2 ≠
      cxS2.earliest.getD (cxPb4.inst.n_jobs - 1) 0 -
        specSinkEarliestNoClear cxPb4 cxS2 3 := by decide

theorem transitionPropagateBody_zero (pb : RcpspL) (done : Finset ℕ)
    (maybe : Option (Finset ℕ)) (cons : List (List Step))
    (hsucc : ∀ i, i ∉ done → ∀ k ∈ pb.inst.successors_set.getD i [], k ∉ done)
    (acc : List Int × Int) (i : ℕ)
    (h : ∀ j ∈ done, acc.1.getD j 0 = 0) :
    ∀ j ∈ done, (transitionPropagateBody pb done maybe cons acc i).1.getD j 0 = 0 := by
  intro j hj
  unfold transitionPropagateBody
  by_cases hi : i ∈ done
  · simp only [if_pos hi]
    exact h j hj
  · simp only [if_neg hi]
    have hji : j ≠ i := fun hc => hi (hc ▸ hj)
    have hv : (acc.1.set i (compute_start_time pb cons i (acc.1.getD i 0))).getD j 0 = 0 := by
      rw [getD_set_ne _ hji]
      exact h j hj
    have hjs : j ∉ pb.inst.successors_set.getD i [] := fun hc => hsucc i hi j hc hj
    cases maybe with
    | none =>
      show (propagatePrec _ i _ _).getD j 0 = 0
      rw [propagatePrec_getD_not_mem _ _ _ _ j hjs]
      exact hv
    | some m =>
      by_cases him : i ∈ m
      · simp only [if_pos him]
        exact hv
      · simp only [if_neg him]
        show (propagatePrec _ i _ _).getD j 0 = 0
        rw [propagatePrec_getD_not_mem _ _ _ _ j hjs]
        exact hv

theorem transitionPropagate_zero (pb : RcpspL) (done : Finset ℕ)
    (maybe : Option (Finset ℕ)) (cons : List (List Step))
    (hsucc : ∀ i, i ∉ done → ∀ k ∈ pb.inst.successors_set.getD i [], k ∉ done)
    (init : List Int) (h : ∀ j ∈ done, init.getD j 0 = 0) :
    ∀ j ∈ done, (transitionPropagate pb done maybe cons init).1.getD j 0 = 0 := by
  unfold transitionPropagate
  exact foldl_preserve (fun acc => ∀ j ∈ done, acc.1.getD j 0 = 0)
    (transitionPropagateBody pb done maybe cons)
    (fun a i ha => transitionPropagateBody_zero pb done maybe cons hsucc a i ha)
    pb.topo_order (init, isizeMAX) h

/-- C1 amended.  The invariant "done implies earliest = 0" holds in the
initial state (whose `done` is empty) and is preserved by
`combined_transition` at any state whose done set already satisfies it
and is closed under predecessors, for a decision whose predecessors are
done (in particular along exact paths); the relaxation's `merge`,
however, leaves `earliest[j]` at the `isize::MAX` sentinel — not 0 — for
every job `j` done in all inputs, so the invariant as stated fails for
merged states. -/
theorem done_earliest_invariant_amended :
    (∀ pb : RcpspL, ∀ j ∈ (initialState pb).done,
      (initialState pb).earliest.getD j 0 = 0) ∧
    (∀ (pb : RcpspL) (s : StateL) (d : ℕ),
      d < s.earliest.length →
      d ∉ s.done →
      pb.inst.predecessors.getD d ∅ ⊆ s.done →
      (∀ j ∈ s.done, s.earliest.getD j 0 = 0) →
      (∀ j ∈ s.done, pb.inst.predecessors.getD j ∅ ⊆ s.done) →
      (∀ i j : ℕ, j ∈ pb.inst.successors_set.getD i [] →
        i ∈ pb.inst.predecessors.getD j ∅) →
      ∀ j ∈ (combined_transition pb s d).1.done,
        (combined_transition pb s d).1.earliest.getD j 0 = 0) ∧
    (∀ (pb : RcpspL) (states : List StateL) (j : ℕ), j < pb.inst.n_jobs →
      (∀ s ∈ states, j ∈ s.done) →
      (merge pb states).earliest.getD j 0 = isizeMAX) := by
  refine ⟨?_, ?_, ?_⟩
  · intro pb j hj
    simp [initialState] at hj
  · intro pb s d hdlen hdnot hfeas hinv hclosed hsymm j hj
    have hjD : j ∈ insert d s.done := hj
    have hsucc_d : ∀ k ∈ pb.inst.successors_set.getD d [], k ∉ insert d s.done := by
      intro k hk hmem
      have hkp : d ∈ pb.inst.predecessors.getD k ∅ := hsymm d k hk
      rcases Finset.mem_insert.mp hmem with hkd | hks
      · exact hdnot (hfeas (hkd ▸ hkp))
      · exact hdnot (hclosed k hks hkp)
    have hsucc : ∀ i, i ∉ insert d s.done →
        ∀ k ∈ pb.inst.successors_set.getD i [], k ∉ insert d s.done := by
      intro i hi k hk hmem
      have hip : i ∈ pb.inst.predecessors.getD k ∅ := hsymm i k hk
      rcases Finset.mem_insert.mp hmem with hkd | hks
      · exact hi (Finset.mem_insert_of_mem (hfeas (hkd ▸ hip)))
      · exact hi (Finset.mem_insert_of_mem (hclosed k hks hip))
    have he0 : ∀ j ∈ insert d s.done, (s.earliest.set d 0).getD j 0 = 0 := by
      intro j hj
      by_cases hjd : j = d
      · subst hjd
        exact getD_set_self 0 hdlen
      · rw [getD_set_ne _ hjd]
        exact hinv j ((Finset.mem_insert.mp hj).resolve_left hjd)
    have he1 : ∀ j ∈ insert d s.done,
        (raiseTo (transEndTime pb s d) (s.earliest.set d 0)
          (pb.inst.successors_set.getD d [])).getD j 0 = 0 := by
      intro j hj
      rw [raiseTo_getD_not_mem _ _ _ j (fun hc => hsucc_d j hc hj)]
      exact he0 j hj
    have hpe : ∀ j ∈ insert d s.done, (transAfterProp pb s d).1.getD j 0 = 0 := by
      unfold transAfterProp
      by_cases hdep : s.depth = pb.inst.n_jobs - 1
      · simp only [if_pos hdep]
        exact he1
      · simp only [if_neg hdep]
        exact transitionPropagate_zero pb (insert d s.done) _ _ hsucc _ he1
    have hearl : (combined_transition pb s d).1.earliest =
        (if (transAfterProp pb s d).2 > 0 then
          (forward_to (add_job_consumption pb s.consumption d (transStartTime pb s d))
            (transAfterProp pb s d).2,
           (transAfterProp pb s d).1.map
             fun t => if t > 0 then t - (transAfterProp pb s d).2 else t)
        else (add_job_consumption pb s.consumption d (transStartTime pb s d),
          (transAfterProp pb s d).1)).2 := rfl
    rw [hearl, apply_ite Prod.snd]
    by_cases hsh : (transAfterProp pb s d).2 > 0
    · rw [if_pos hsh, getD_map_zero (by simp), hpe j hjD]
      simp
    · rw [if_neg hsh]
      exact hpe j hjD
  · intro pb states j hj hall
    rw [merge_earliest_getD pb states j hj,
      List.filter_eq_nil.mpr (fun s hs => by simpa using hall s hs)]
    rfl

/-- C1 counterexample.  Merging a state with job 0 done with itself
produces a state whose `done` contains 0 but whose `earliest[0]` is
`isize::MAX`, not 0. -/
theorem done_earliest_invariant_counterexample :
    0 ∈ (merge cxPb2 [cxSa, cxSa]).done ∧
    (merge cxPb2 [cxSa, cxSa]).earliest.getD 0 0 ≠ 0 := by decide

/-- Witness for `done_earliest_invariant_amended`: the transition part at
`cxPb2`/`cxSa` scheduling the sink, and the merge part at job 1. -/
theorem done_earliest_invariant_amended_witness :
    ((combined_transition cxPb2 cxSa 1).1.earliest.getD 1 0 = 0) ∧
    ((merge cxPb2 [cxSb, cxSb]).earliest.getD 1 0 = isizeMAX) :=
  ⟨done_earliest_invariant_amended.2.1 cxPb2 cxSa 1 (by decide) (by decide) (by decide)
      (by decide) (by decide)
      (by
        intro i j hj
        rcases i with _ | _ | k
        · have hj1 : j = 1 := by simpa [cxPb2, cxInst2] using hj
          subst hj1
          decide
        · exact absurd (by simpa [cxPb2, cxInst2] using hj) (List.not_mem_nil j)
        · exact absurd (by simpa [cxPb2, cxInst2] using hj) (List.not_mem_nil j))
      1 (by decide),
   done_earliest_invariant_amended.2.2 cxPb2 [cxSb, cxSb] 1 (by decide) (by decide)⟩

/-- Witness for `merge_earliest_spec` at `cxPb2` with inputs `cxSa`
(job 1 open, earliest 3) and `cxSb` (job 1 done, earliest 0): the merged
`earliest[1]` is 3, taken only from the input where job 1 is open. -/
theorem merge_earliest_spec_witness :
    (merge cxPb2 [cxSa, cxSb]).earliest.getD 1 0 ∈
      (([cxSa, cxSb].filter fun s => decide (1 ∉ s.done)).map
        fun s => s.earliest.getD 1 0) ∧
    (merge cxPb2 [cxSa, cxSb]).earliest.getD 1 0 ≤ 3 :=
  ⟨(merge_earliest_spec cxPb2 [cxSa, cxSb] 1 (by decide) (by decide) (by decide)
      (by decide)).1,
   (merge_earliest_spec cxPb2 [cxSa, cxSb] 1 (by decide) (by decide) (by decide)
      (by decide)).2 3 (by decide)⟩

/-- Witness for `merge_shape_spec` at `cxPb2` with inputs `cxSa` and
`cxSb`. -/
theorem merge_shape_spec_witness :
    Disjoint ((merge cxPb2 [cxSa, cxSb]).maybe_done.getD ∅)
      (merge cxPb2 [cxSa, cxSb]).done ∧
    cxSa.depth ≤ (merge cxPb2 [cxSa, cxSb]).depth :=
  ⟨(merge_shape_spec cxPb2 [cxSa, cxSb] (by decide)).2.2.1,
   (merge_shape_spec cxPb2 [cxSa, cxSb] (by decide)).2.2.2.1 cxSa (by decide)⟩

theorem chainFrom_chainAny : ∀ (l : List Step) (t : Int),
    chainFrom t l = true → chainAny l = true := by
  intro l
  induction l with
  | nil => intro t _; rfl
  | cons a r ih =>
    intro t h
    simp only [chainFrom, Bool.and_eq_true, beq_iff_eq, decide_eq_true_eq] at h
    obtain ⟨⟨ht, hlt⟩, hr⟩ := h
    cases r with
    | nil => simpa [chainAny] using hlt
    | cons b r2 =>
      have hb := ih a.stop hr
      have hbs : a.stop = b.start := by
        simp only [chainFrom, Bool.and_eq_true, beq_iff_eq, decide_eq_true_eq] at hr
        exact hr.1.1
      simp only [chainAny, Bool.and_eq_true, decide_eq_true_eq]
      exact ⟨⟨hlt, hbs⟩, hb⟩

theorem chainFrom_head (a : Step) (r : List Step) (t : Int)
    (h : chainFrom t (a :: r) = true) : a.start = t := by
  simp only [chainFrom, Bool.and_eq_true, beq_iff_eq, decide_eq_true_eq] at h
  exact h.1.1.symm

theorem chainAny_tail {a : Step} {r : List Step} (h : chainAny (a :: r) = true) :
    chainAny r = true := by
  cases r with
  | nil => rfl
  | cons b r2 =>
    simp only [chainAny, Bool.and_eq_true] at h
    exact h.2

theorem chainAny_head_lt {a : Step} {r : List Step} (h : chainAny (a :: r) = true) :
    a.start < a.stop := by
  cases r with
  | nil => simpa [chainAny] using h
  | cons b r2 =>
    simp only [chainAny, Bool.and_eq_true, decide_eq_true_eq] at h
    exact h.1.1

theorem chainAny_link {a b : Step} {r : List Step}
    (h : chainAny (a :: b :: r) = true) : a.stop = b.start := by
  simp only [chainAny, Bool.and_eq_true, decide_eq_true_eq] at h
  exact h.1.2

theorem headStop_le_last : ∀ (l : List Step), chainAny l = true → l ≠ [] →
    headStopD l ≤ lastStopD l 0 := by
  intro l
  induction l with
  | nil => intro _ h; exact absurd rfl h
  | cons a r ih =>
    intro h _
    cases r with
    | nil => simp [headStopD, lastStopD, List.getLastD]
    | cons b r2 =>
      have h2 := ih (chainAny_tail h) (by simp)
      have hlink := chainAny_link h
      have hbl := chainAny_head_lt (chainAny_tail h)
      rw [lastStopD_cons]
      simp only [headStopD, List.headD] at h2 ⊢
      omega

theorem headStop_lt_last {a b : Step} {r : List Step}
    (h : chainAny (a :: b :: r) = true) :
    a.stop < lastStopD (a :: b :: r) 0 := by
  have h2 := headStop_le_last (b :: r) (chainAny_tail h) (by simp)
  have hlink := chainAny_link h
  have hbl := chainAny_head_lt (chainAny_tail h)
  rw [lastStopD_cons]
  simp only [headStopD, List.headD] at h2
  omega

theorem sweep_bundle : ∀ (n : ℕ) (A B : List Step), A.length + B.length ≤ n →
    A ≠ [] → B ≠ [] → chainAny A = true → chainAny B = true →
    lastStopD A 0 = isizeMAX → lastStopD B 0 = isizeMAX →
    max (headStartD A) (headStartD B) < min (headStopD A) (headStopD B) →
    mergeSweep A B ≠ [] ∧
    headStartD (mergeSweep A B) = max (headStartD A) (headStartD B) ∧
    chainAny (mergeSweep A B) = true ∧
    lastStopD (mergeSweep A B) 0 = isizeMAX ∧
    ∀ t : Int, remAt (mergeSweep A B) t = max (remAt A t) (remAt B t) := by
  intro n
  induction n with
  | zero =>
    intro A B hlen hA
    cases A with
    | nil => exact absurd rfl hA
    | cons a as => simp at hlen
  | succ n ih =>
    intro A B hlen hA hB hcA hcB hlA hlB halg
    cases A with
    | nil => exact absurd rfl hA
    | cons a as =>
    cases B with
    | nil => exact absurd rfl hB
    | cons b bs =>
      simp only [headStartD, headStopD, List.headD] at halg
      have hswp : mergeSweep (a :: as) (b :: bs) =
          ⟨max a.start b.start, min a.stop b.stop,
            max a.rem_capacity b.rem_capacity⟩ ::
          (if a.stop < b.stop then mergeSweep as (b :: bs)
           else mergeSweep (a :: as) bs) := by
        rw [mergeSweep]
        rw [if_pos (by omega)]
      rcases lt_trichotomy a.stop b.stop with hab | hab | hab
      · -- a ends first: as is non-empty and the sweep advances into it
        have hbs_le : b.stop ≤ isizeMAX := by
          have := headStop_le_last (b :: bs) hcB (by simp)
          simpa [headStopD, List.headD, hlB] using this
        obtain ⟨a2, as', rfl⟩ : ∃ a2 as', as = a2 :: as' := by
          cases as with
          | nil =>
            exfalso
            have : a.stop = isizeMAX := by
              simpa [lastStopD, List.getLastD] using hlA
            omega
          | cons a2 as' => exact ⟨a2, as', rfl⟩
        have hlink := chainAny_link hcA
        have ha2lt := chainAny_head_lt (chainAny_tail hcA)
        have hrec := ih (a2 :: as') (b :: bs)
          (by simp only [List.length_cons] at hlen ⊢; omega)
          (by simp) (by simp) (chainAny_tail hcA) hcB
          (by rw [← lastStopD_cons (a := a)]; exact hlA) hlB
          (by simp only [headStartD, headStopD, List.headD]; omega)
        rw [hswp, if_pos hab]
        obtain ⟨hne, hhs, hch, hls, hrem⟩ := hrec
        obtain ⟨x, xs, hx⟩ := List.exists_cons_of_ne_nil hne
        simp only [headStartD, List.headD, hx] at hhs
        refine ⟨by simp, by simp [headStartD, List.headD], ?_, ?_, ?_⟩
        · rw [hx]
          simp only [chainAny, Bool.and_eq_true, decide_eq_true_eq]
          refine ⟨⟨by omega, ?_⟩, by rw [← hx]; exact hch⟩
          omega
        · rw [hx, lastStopD_cons, ← hx]
          exact hls
        · intro t
          have hL : remAt (⟨max a.start b.start, min a.stop b.stop,
              max a.rem_capacity b.rem_capacity⟩ :: mergeSweep (a2 :: as') (b :: bs)) t =
              if t < min a.stop b.stop then max a.rem_capacity b.rem_capacity
              else remAt (mergeSweep (a2 :: as') (b :: bs)) t := by
            rw [hx]
            rfl
          rw [hL]
          by_cases ht : t < min a.stop b.stop
          · rw [if_pos ht]
            have h1 : remAt (a :: a2 :: as') t = a.rem_capacity := by
              show (if t < a.stop then a.rem_capacity else remAt (a2 :: as') t) = _
              rw [if_pos (by omega)]
            have h2 : remAt (b :: bs) t = b.rem_capacity := by
              cases bs with
              | nil => rfl
              | cons b2 bs' =>
                show (if t < b.stop then b.rem_capacity else remAt (b2 :: bs') t) = _
                rw [if_pos (by omega)]
            rw [h1, h2]
          · rw [if_neg ht, hrem t]
            have h1 : remAt (a :: a2 :: as') t = remAt (a2 :: as') t := by
              show (if t < a.stop then a.rem_capacity else remAt (a2 :: as') t) = _
              rw [if_neg (by omega)]
            rw [h1]
      · -- equal stops: tie advances the second list through a no-emit step
        rcases eq_or_ne as ([] : List Step) with rfl | hasne
        · -- both lists are singletons ending at the sentinel
          have haMAX : a.stop = isizeMAX := by
            simpa [lastStopD, List.getLastD] using hlA
          obtain rfl : bs = [] := by
            cases bs with
            | nil => rfl
            | cons b2 bs' =>
              exfalso
              have := headStop_lt_last hcB
              rw [hlB] at this
              omega
          rw [hswp, if_neg (by omega)]
          rw [show mergeSweep [a] ([] : List Step) = [] by rw [mergeSweep]]
          refine ⟨by simp, by simp [headStartD, List.headD], ?_, ?_, ?_⟩
          · simp only [chainAny, decide_eq_true_eq]
            omega
          · have hsing : lastStopD [(⟨max a.start b.start, min a.stop b.stop,
                max a.rem_capacity b.rem_capacity⟩ : Step)] 0 = min a.stop b.stop := rfl
            rw [hsing]
            omega
          · intro t
            rfl
        · -- both tails are non-empty
          obtain ⟨a2, as', rfl⟩ := List.exists_cons_of_ne_nil hasne
          have haltMAX : a.stop < isizeMAX := by
            have := headStop_lt_last hcA
            rwa [hlA] at this
          obtain ⟨b2, bs', rfl⟩ : ∃ b2 bs', bs = b2 :: bs' := by
            cases bs with
            | nil =>
              exfalso
              have : b.stop = isizeMAX := by
                simpa [lastStopD, List.getLastD] using hlB
              omega
            | cons b2 bs' => exact ⟨b2, bs', rfl⟩
          have hlinkA := chainAny_link hcA
          have hlinkB := chainAny_link hcB
          have ha2lt := chainAny_head_lt (chainAny_tail hcA)
          have hb2lt := chainAny_head_lt (chainAny_tail hcB)
          have htrans : mergeSweep (a :: a2 :: as') (b :: b2 :: bs') =
              ⟨max a.start b.start, min a.stop b.stop,
                max a.rem_capacity b.rem_capacity⟩ ::
              mergeSweep (a2 :: as') (b2 :: bs') := by
            rw [hswp, if_neg (by omega)]
            congr 1
            rw [mergeSweep]
            rw [if_neg (by omega), if_pos (by omega)]
          have hrec := ih (a2 :: as') (b2 :: bs')
            (by simp only [List.length_cons] at hlen ⊢; omega)
            (by simp) (by simp) (chainAny_tail hcA) (chainAny_tail hcB)
            (by rw [← lastStopD_cons (a := a)]; exact hlA)
            (by rw [← lastStopD_cons (a := b)]; exact hlB)
            (by simp only [headStartD, headStopD, List.headD]; omega)
          obtain ⟨hne, hhs, hch, hls, hrem⟩ := hrec
          obtain ⟨x, xs, hx⟩ := List.exists_cons_of_ne_nil hne
          simp only [headStartD, List.headD, hx] at hhs
          rw [htrans]
          refine ⟨by simp, by simp [headStartD, List.headD], ?_, ?_, ?_⟩
          · rw [hx]
            simp only [chainAny, Bool.and_eq_true, decide_eq_true_eq]
            refine ⟨⟨by omega, by omega⟩, by rw [← hx]; exact hch⟩
          · rw [hx, lastStopD_cons, ← hx]
            exact hls
          · intro t
            have hL : remAt (⟨max a.start b.start, min a.stop b.stop,
                max a.rem_capacity b.rem_capacity⟩ :: mergeSweep (a2 :: as') (b2 :: bs')) t =
                if t < min a.stop b.stop then max a.rem_capacity b.rem_capacity
                else remAt (mergeSweep (a2 :: as') (b2 :: bs')) t := by
              rw [hx]
              rfl
            rw [hL]
            by_cases ht : t < min a.stop b.stop
            · rw [if_pos ht]
              have h1 : remAt (a :: a2 :: as') t = a.rem_capacity := by
                show (if t < a.stop then a.rem_capacity else remAt (a2 :: as') t) = _
                rw [if_pos (by omega)]
              have h2 : remAt (b :: b2 :: bs') t = b.rem_capacity := by
                show (if t < b.stop then b.rem_capacity else remAt (b2 :: bs') t) = _
                rw [if_pos (by omega)]
              rw [h1, h2]
            · rw [if_neg ht, hrem t]
              have h1 : remAt (a :: a2 :: as') t = remAt (a2 :: as') t := by
                show (if t < a.stop then a.rem_capacity else remAt (a2 :: as') t) = _
                rw [if_neg (by omega)]
              have h2 : remAt (b :: b2 :: bs') t = remAt (b2 :: bs') t := by
                show (if t < b.stop then b.rem_capacity else remAt (b2 :: bs') t) = _
                rw [if_neg (by omega)]
              rw [h1, h2]
      · -- b ends first: bs is non-empty and the sweep advances into it
        have has_le : a.stop ≤ isizeMAX := by
          have := headStop_le_last (a :: as) hcA (by simp)
          simpa [headStopD, List.headD, hlA] using this
        obtain ⟨b2, bs', rfl⟩ : ∃ b2 bs', bs = b2 :: bs' := by
          cases bs with
          | nil =>
            exfalso
            have : b.stop = isizeMAX := by
              simpa [lastStopD, List.getLastD] using hlB
            omega
          | cons b2 bs' => exact ⟨b2, bs', rfl⟩
        have hlink := chainAny_link hcB
        have hb2lt := chainAny_head_lt (chainAny_tail hcB)
        have hrec := ih (a :: as) (b2 :: bs')
          (by simp only [List.length_cons] at hlen ⊢; omega)
          (by simp) (by simp) hcA (chainAny_tail hcB)
          hlA (by rw [← lastStopD_cons (a := b)]; exact hlB)
          (by simp only [headStartD, headStopD, List.headD]; omega)
        rw [hswp, if_neg (by omega)]
        obtain ⟨hne, hhs, hch, hls, hrem⟩ := hrec
        obtain ⟨x, xs, hx⟩ := List.exists_cons_of_ne_nil hne
        simp only [headStartD, List.headD, hx] at hhs
        refine ⟨by simp, by simp [headStartD, List.headD], ?_, ?_, ?_⟩
        · rw [hx]
          simp only [chainAny, Bool.and_eq_true, decide_eq_true_eq]
          refine ⟨⟨by omega, by omega⟩, by rw [← hx]; exact hch⟩
        · rw [hx, lastStopD_cons, ← hx]
          exact hls
        · intro t
          have hL : remAt (⟨max a.start b.start, min a.stop b.stop,
              max a.rem_capacity b.rem_capacity⟩ :: mergeSweep (a :: as) (b2 :: bs')) t =
              if t < min a.stop b.stop then max a.rem_capacity b.rem_capacity
              else remAt (mergeSweep (a :: as) (b2 :: bs')) t := by
            rw [hx]
            rfl
          rw [hL]
          by_cases ht : t < min a.stop b.stop
          · rw [if_pos ht]
            have h1 : remAt (b :: b2 :: bs') t = b.rem_capacity := by
              show (if t < b.stop then b.rem_capacity else remAt (b2 :: bs') t) = _
              rw [if_pos (by omega)]
            have h2 : remAt (a :: as) t = a.rem_capacity := by
              cases as with
              | nil => rfl
              | cons a2 as' =>
                show (if t < a.stop then a.rem_capacity else remAt (a2 :: as') t) = _
                rw [if_pos (by omega)]
            rw [h1, h2]
          · rw [if_neg ht, hrem t]
            have h1 : remAt (b :: b2 :: bs') t = remAt (b2 :: bs') t := by
              show (if t < b.stop then b.rem_capacity else remAt (b2 :: bs') t) = _
              rw [if_neg (by omega)]
            rw [h1]

theorem sweep_comm : ∀ (n : ℕ) (A B : List Step), A.length + B.length ≤ n →
    A ≠ [] → B ≠ [] → chainAny A = true → chainAny B = true →
    lastStopD A 0 = isizeMAX → lastStopD B 0 = isizeMAX →
    max (headStartD A) (headStartD B) < min (headStopD A) (headStopD B) →
    mergeSweep A B = mergeSweep B A := by
  intro n
  induction n with
  | zero =>
    intro A B hlen hA
    cases A with
    | nil => exact absurd rfl hA
    | cons a as => simp at hlen
  | succ n ih =>
    intro A B hlen hA hB hcA hcB hlA hlB halg
    cases A with
    | nil => exact absurd rfl hA
    | cons a as =>
    cases B with
    | nil => exact absurd rfl hB
    | cons b bs =>
      simp only [headStartD, headStopD, List.headD] at halg
      have hswpAB : mergeSweep (a :: as) (b :: bs) =
          ⟨max a.start b.start, min a.stop b.stop,
            max a.rem_capacity b.rem_capacity⟩ ::
          (if a.stop < b.stop then mergeSweep as (b :: bs)
           else mergeSweep (a :: as) bs) := by
        rw [mergeSweep]
        rw [if_pos (by omega)]
      have hswpBA : mergeSweep (b :: bs) (a :: as) =
          ⟨max a.start b.start, min a.stop b.stop,
            max a.rem_capacity b.rem_capacity⟩ ::
          (if b.stop < a.stop then mergeSweep bs (a :: as)
           else mergeSweep (b :: bs) as) := by
        rw [mergeSweep]
        rw [if_pos (by omega)]
        rw [max_comm b.start a.start, min_comm b.stop a.stop,
          max_comm b.rem_capacity a.rem_capacity]
      rcases lt_trichotomy a.stop b.stop with hab | hab | hab
      · have hbs_le : b.stop ≤ isizeMAX := by
          have := headStop_le_last (b :: bs) hcB (by simp)
          simpa [headStopD, List.headD, hlB] using this
        obtain ⟨a2, as', rfl⟩ : ∃ a2 as', as = a2 :: as' := by
          cases as with
          | nil =>
            exfalso
            have : a.stop = isizeMAX := by
              simpa [lastStopD, List.getLastD] using hlA
            omega
          | cons a2 as' => exact ⟨a2, as', rfl⟩
        have hlink := chainAny_link hcA
        have ha2lt := chainAny_head_lt (chainAny_tail hcA)
        rw [hswpAB, if_pos hab, hswpBA, if_neg (by omega)]
        congr 1
        exact ih (a2 :: as') (b :: bs)
          (by simp only [List.length_cons] at hlen ⊢; omega)
          (by simp) (by simp) (chainAny_tail hcA) hcB
          (by rw [← lastStopD_cons (a := a)]; exact hlA) hlB
          (by simp only [headStartD, headStopD, List.headD]; omega)
      · rcases eq_or_ne as ([] : List Step) with rfl | hasne
        · have haMAX : a.stop = isizeMAX := by
            simpa [lastStopD, List.getLastD] using hlA
          obtain rfl : bs = [] := by
            cases bs with
            | nil => rfl
            | cons b2 bs' =>
              exfalso
              have := headStop_lt_last hcB
              rw [hlB] at this
              omega
          rw [hswpAB, if_neg (by omega), hswpBA, if_neg (by omega)]
          rw [show mergeSweep [a] ([] : List Step) = [] by rw [mergeSweep],
            show mergeSweep [b] ([] : List Step) = [] by rw [mergeSweep]]
        · obtain ⟨a2, as', rfl⟩ := List.exists_cons_of_ne_nil hasne
          have haltMAX : a.stop < isizeMAX := by
            have := headStop_lt_last hcA
            rwa [hlA] at this
          obtain ⟨b2, bs', rfl⟩ : ∃ b2 bs', bs = b2 :: bs' := by
            cases bs with
            | nil =>
              exfalso
              have : b.stop = isizeMAX := by
                simpa [lastStopD, List.getLastD] using hlB
              omega
            | cons b2 bs' => exact ⟨b2, bs', rfl⟩
          have hlinkA := chainAny_link hcA
          have hlinkB := chainAny_link hcB
          have halt := chainAny_head_lt hcA
          have hblt := chainAny_head_lt hcB
          have ha2lt := chainAny_head_lt (chainAny_tail hcA)
          have hb2lt := chainAny_head_lt (chainAny_tail hcB)
          have htrans1 : mergeSweep (a :: a2 :: as') (b2 :: bs') =
              mergeSweep (a2 :: as') (b2 :: bs') := by
            rw [mergeSweep]
            rw [if_neg (by omega), if_pos (by omega)]
          have htrans2 : mergeSweep (b :: b2 :: bs') (a2 :: as') =
              mergeSweep (b2 :: bs') (a2 :: as') := by
            rw [mergeSweep]
            rw [if_neg (by omega), if_pos (by omega)]
          rw [hswpAB, if_neg (by omega), hswpBA, if_neg (by omega), htrans1, htrans2]
          congr 1
          exact ih (a2 :: as') (b2 :: bs')
            (by simp only [List.length_cons] at hlen ⊢; omega)
            (by simp) (by simp) (chainAny_tail hcA) (chainAny_tail hcB)
            (by rw [← lastStopD_cons (a := a)]; exact hlA)
            (by rw [← lastStopD_cons (a := b)]; exact hlB)
            (by simp only [headStartD, headStopD, List.headD]; omega)
      · have has_le : a.stop ≤ isizeMAX := by
          have := headStop_le_last (a :: as) hcA (by simp)
          simpa [headStopD, List.headD, hlA] using this
        obtain ⟨b2, bs', rfl⟩ : ∃ b2 bs', bs = b2 :: bs' := by
          cases bs with
          | nil =>
            exfalso
            have : b.stop = isizeMAX := by
              simpa [lastStopD, List.getLastD] using hlB
            omega
          | cons b2 bs' => exact ⟨b2, bs', rfl⟩
        have hlink := chainAny_link hcB
        have hb2lt := chainAny_head_lt (chainAny_tail hcB)
        rw [hswpAB, if_neg (by omega), hswpBA, if_pos hab]
        congr 1
        exact ih (a :: as) (b2 :: bs')
          (by simp only [List.length_cons] at hlen ⊢; omega)
          (by simp) (by simp) hcA (chainAny_tail hcB)
          hlA (by rw [← lastStopD_cons (a := b)]; exact hlB)
          (by simp only [headStartD, headStopD, List.headD]; omega)

theorem sweep_diag : ∀ (A : List Step), chainAny A = true → A ≠ [] →
    lastStopD A 0 = isizeMAX → mergeSweep A A = A := by
  intro A
  induction A with
  | nil => intro _ h; exact absurd rfl h
  | cons a as ih =>
    intro hc _ hl
    have halt := chainAny_head_lt hc
    cases as with
    | nil =>
      have h1 : mergeSweep [a] ([] : List Step) = [] := by rw [mergeSweep]
      rw [mergeSweep]
      rw [if_neg (lt_irrefl a.stop), h1, if_pos (by omega)]
      simp
    | cons a2 as' =>
      have hlink := chainAny_link hc
      have ha2lt := chainAny_head_lt (chainAny_tail hc)
      have h1 : mergeSweep (a :: a2 :: as') (a :: a2 :: as') =
          ⟨max a.start a.start, min a.stop a.stop, max a.rem_capacity a.rem_capacity⟩ ::
          mergeSweep (a :: a2 :: as') (a2 :: as') := by
        rw [mergeSweep]
        rw [if_neg (lt_irrefl a.stop), if_pos (by omega)]
      have h2 : mergeSweep (a :: a2 :: as') (a2 :: as') =
          mergeSweep (a2 :: as') (a2 :: as') := by
        rw [mergeSweep]
        rw [if_neg (by omega), if_pos (by omega)]
      rw [h1, h2, ih (chainAny_tail hc) (by simp)
        (by rw [← lastStopD_cons (a := a)]; exact hl)]
      simp

theorem canonSteps_ne_nil : ∀ (n : ℕ) (l : List Step), l.length ≤ n → l ≠ [] →
    canonSteps l ≠ [] := by
  intro n
  induction n with
  | zero =>
    intro l hlen hne
    cases l with
    | nil => exact absurd rfl hne
    | cons a t => simp at hlen
  | succ n ih =>
    intro l hlen hne
    cases l with
    | nil => exact absurd rfl hne
    | cons a t =>
      cases t with
      | nil => rw [canonSteps]; simp
      | cons b r =>
        rw [canonSteps]
        by_cases hcap : a.rem_capacity = b.rem_capacity
        · rw [if_pos hcap]
          exact ih _ (by simp only [List.length_cons] at hlen ⊢; omega) (by simp)
        · rw [if_neg hcap]
          simp

theorem canonSteps_remAt : ∀ (n : ℕ) (l : List Step), l.length ≤ n →
    chainAny l = true → ∀ t : Int, remAt (canonSteps l) t = remAt l t := by
  intro n
  induction n with
  | zero =>
    intro l hlen _ t
    cases l with
    | nil => rw [canonSteps]
    | cons a r => simp at hlen
  | succ n ih =>
    intro l hlen hc t
    cases l with
    | nil => rw [canonSteps]
    | cons a r =>
      cases r with
      | nil => rw [canonSteps]
      | cons b r2 =>
        have halt := chainAny_head_lt hc
        have hlink := chainAny_link hc
        have hblt := chainAny_head_lt (chainAny_tail hc)
        rw [canonSteps]
        by_cases hcap : a.rem_capacity = b.rem_capacity
        · rw [if_pos hcap]
          have hch2 : chainAny ({ a with stop := b.stop } :: r2) = true := by
            cases r2 with
            | nil =>
              simp only [chainAny, decide_eq_true_eq]
              omega
            | cons c r3 =>
              have hlink2 := chainAny_link (chainAny_tail hc)
              simp only [chainAny, Bool.and_eq_true, decide_eq_true_eq]
              exact ⟨⟨by omega, hlink2⟩, chainAny_tail (chainAny_tail hc)⟩
          rw [ih _ (by simp only [List.length_cons] at hlen ⊢; omega) hch2 t]
          cases r2 with
          | nil =>
            show ({ a with stop := b.stop } : Step).rem_capacity =
              if t < a.stop then a.rem_capacity else remAt [b] t
            by_cases ht : t < a.stop
            · rw [if_pos ht]
            · rw [if_neg ht]
              exact hcap
          | cons c r3 =>
            show (if t < b.stop then a.rem_capacity else remAt (c :: r3) t) =
              if t < a.stop then a.rem_capacity
              else if t < b.stop then b.rem_capacity else remAt (c :: r3) t
            by_cases ht1 : t < a.stop
            · rw [if_pos (by omega), if_pos ht1]
            · rw [if_neg ht1]
              by_cases ht2 : t < b.stop
              · rw [if_pos ht2, if_pos ht2, hcap]
              · rw [if_neg ht2, if_neg ht2]
        · rw [if_neg hcap]
          have hcr : canonSteps (b :: r2) ≠ [] :=
            canonSteps_ne_nil (b :: r2).length _ le_rfl (by simp)
          obtain ⟨x, xs, hx⟩ := List.exists_cons_of_ne_nil hcr
          have hL : remAt (a :: canonSteps (b :: r2)) t =
              if t < a.stop then a.rem_capacity else remAt (canonSteps (b :: r2)) t := by
            rw [hx]
            rfl
          rw [hL, ih _ (by simp only [List.length_cons] at hlen ⊢; omega)
            (chainAny_tail hc) t]
          rfl

theorem capsDistinct_canonSteps_eq : ∀ l : List Step, capsDistinct l = true →
    canonSteps l = l := by
  intro l
  induction l with
  | nil => intro _; rw [canonSteps]
  | cons a t ih =>
    intro h
    cases t with
    | nil => rw [canonSteps]
    | cons b r =>
      simp only [capsDistinct, Bool.and_eq_true, decide_eq_true_eq] at h
      rw [canonSteps, if_neg h.1, ih (by
        cases r with
        | nil => rfl
        | cons c r2 =>
          simp only [capsDistinct, Bool.and_eq_true, decide_eq_true_eq] at h ⊢
          exact h.2)]

theorem clipBefore_nil_of_le {bound : Int} {a : Step} {t : List Step}
    (h : bound ≤ a.start) : clipBefore bound (a :: t) = [] := by
  unfold clipBefore
  rw [if_neg (not_lt.mpr h)]

theorem merge_profile_canon (p q : List Step) (hp : ContigProfile p)
    (hq : ContigProfile q) :
    merge_consumption_profile p q = canonSteps (mergeSweep p q) := by
  obtain ⟨hpne, hpch, -⟩ := hp
  obtain ⟨hqne, hqch, -⟩ := hq
  obtain ⟨a, as, rfl⟩ := List.exists_cons_of_ne_nil hpne
  obtain ⟨b, bs, rfl⟩ := List.exists_cons_of_ne_nil hqne
  have hpa : a.start = 0 := chainFrom_head a as 0 hpch
  have hqb : b.start = 0 := chainFrom_head b bs 0 hqch
  show canonSteps (clipBefore b.start (a :: as) ++ clipBefore a.start (b :: bs) ++
    mergeSweep (a :: as) (b :: bs)) = _
  rw [clipBefore_nil_of_le (by omega), clipBefore_nil_of_le (by omega)]
  rfl

/-- C6.  For canonical profiles `p` and `q` sharing origin 0 and
extending to the `+∞` sentinel, the merged profile's remaining capacity
at every `t ≥ 0` is at least the maximum of the inputs' remaining
capacities (in fact it equals it). -/
theorem merge_profile_dominates (p q : List Step) (hp : CanonicalProfile p)
    (hq : CanonicalProfile q) (t : Int) (ht : 0 ≤ t) :
    max (remAt p t) (remAt q t) ≤ remAt (merge_consumption_profile p q) t := by
  obtain ⟨⟨hpne, hpch, hpl⟩, -⟩ := hp
  obtain ⟨⟨hqne, hqch, hql⟩, -⟩ := hq
  have hm := merge_profile_canon p q ⟨hpne, hpch, hpl⟩ ⟨hqne, hqch, hql⟩
  obtain ⟨a, as, rfl⟩ := List.exists_cons_of_ne_nil hpne
  obtain ⟨b, bs, rfl⟩ := List.exists_cons_of_ne_nil hqne
  have hpa : a.start = 0 := chainFrom_head a as 0 hpch
  have hqb : b.start = 0 := chainFrom_head b bs 0 hqch
  have hbundle := sweep_bundle ((a :: as).length + (b :: bs).length)
    (a :: as) (b :: bs) le_rfl (by simp) (by simp)
    (chainFrom_chainAny _ _ hpch) (chainFrom_chainAny _ _ hqch) hpl hql
    (by
      have h1 := chainAny_head_lt (chainFrom_chainAny _ _ hpch)
      have h2 := chainAny_head_lt (chainFrom_chainAny _ _ hqch)
      simp only [headStartD, headStopD, List.headD]
      omega)
  rw [hm, canonSteps_remAt (mergeSweep (a :: as) (b :: bs)).length _ le_rfl
    hbundle.2.2.1 t, hbundle.2.2.2.2 t]

/-- C8.  For canonical profiles sharing origin 0 and extending to the
`+∞` sentinel, the profile merge is commutative as a structural equality
of step sequences, and merging a profile with itself returns it
unchanged. -/
theorem merge_profile_algebra (p q : List Step) (hp : CanonicalProfile p)
    (hq : CanonicalProfile q) :
    merge_consumption_profile p q = merge_consumption_profile q p ∧
    merge_consumption_profile p p = p := by
  obtain ⟨⟨hpne, hpch, hpl⟩, hpcd⟩ := hp
  obtain ⟨⟨hqne, hqch, hql⟩, -⟩ := hq
  constructor
  · rw [merge_profile_canon p q ⟨hpne, hpch, hpl⟩ ⟨hqne, hqch, hql⟩,
      merge_profile_canon q p ⟨hqne, hqch, hql⟩ ⟨hpne, hpch, hpl⟩]
    congr 1
    obtain ⟨a, as, rfl⟩ := List.exists_cons_of_ne_nil hpne
    obtain ⟨b, bs, rfl⟩ := List.exists_cons_of_ne_nil hqne
    have hpa : a.start = 0 := chainFrom_head a as 0 hpch
    have hqb : b.start = 0 := chainFrom_head b bs 0 hqch
    exact sweep_comm ((a :: as).length + (b :: bs).length) (a :: as) (b :: bs)
      le_rfl (by simp) (by simp)
      (chainFrom_chainAny _ _ hpch) (chainFrom_chainAny _ _ hqch) hpl hql
      (by
        have h1 := chainAny_head_lt (chainFrom_chainAny _ _ hpch)
        have h2 := chainAny_head_lt (chainFrom_chainAny _ _ hqch)
        simp only [headStartD, headStopD, List.headD]
        omega)
  · rw [merge_profile_canon p p ⟨hpne, hpch, hpl⟩ ⟨hpne, hpch, hpl⟩,
      sweep_diag p (chainFrom_chainAny _ _ hpch) hpne hpl,
      capsDistinct_canonSteps_eq p hpcd]

/-- Witness for `merge_profile_dominates` at the concrete canonical
profiles `[0,5)↦2, [5,+∞)↦3` and `[0,+∞)↦1` and time 4. -/
theorem merge_profile_dominates_witness :
    max (remAt [⟨0, 5, 2⟩, ⟨5, isizeMAX, 3⟩] 4) (remAt [⟨0, isizeMAX, 1⟩] 4) ≤
      remAt (merge_consumption_profile [⟨0, 5, 2⟩, ⟨5, isizeMAX, 3⟩]
        [⟨0, isizeMAX, 1⟩]) 4 :=
  merge_profile_dominates [⟨0, 5, 2⟩, ⟨5, isizeMAX, 3⟩] [⟨0, isizeMAX, 1⟩]
    (by decide) (by decide) 4 (by decide)

/-- Witness for `merge_profile_algebra` at the concrete canonical
profiles `[0,5)↦2, [5,+∞)↦3` and `[0,3)↦1, [3,+∞)↦4`. -/
theorem merge_profile_algebra_witness :
    merge_consumption_profile [⟨0, 5, 2⟩, ⟨5, isizeMAX, 3⟩]
        [⟨0, 3, 1⟩, ⟨3, isizeMAX, 4⟩] =
      merge_consumption_profile [⟨0, 3, 1⟩, ⟨3, isizeMAX, 4⟩]
        [⟨0, 5, 2⟩, ⟨5, isizeMAX, 3⟩] ∧
    merge_consumption_profile [⟨0, 5, 2⟩, ⟨5, isizeMAX, 3⟩]
        [⟨0, 5, 2⟩, ⟨5, isizeMAX, 3⟩] = [⟨0, 5, 2⟩, ⟨5, isizeMAX, 3⟩] :=
  merge_profile_algebra [⟨0, 5, 2⟩, ⟨5, isizeMAX, 3⟩] [⟨0, 3, 1⟩, ⟨3, isizeMAX, 4⟩]
    (by decide) (by decide)

/-- C10 counterexample.  On the single-resource state with profile
`[0,+∞)↦5`, consumption 3, candidate earliest 5 and duration
`isize::MAX - 1`, the accumulation loop adds `MAX - 5 < MAX - 1` at the
final step and then indexes past the end of the deque: the source
panics with an out-of-bounds access for every amount of outer-loop fuel,
so the claimed termination without out-of-bounds indexing fails. -/
theorem get_earliest_start_counterexample :
    ¬ GesTerminatesGE [[⟨0, isizeMAX, 5⟩]] 5 (isizeMAX - 1) [3] := by
  rintro ⟨fuel, v, hok, -⟩
  cases fuel with
  | zero => exact GesResult.noConfusion hok
  | succ f =>
    have hpass : gesPass (isizeMAX - 1)
        (([[(⟨0, isizeMAX, 5⟩ : Step)]] : List (List Step)).zip [(3 : Int)])
        (List.replicate ([[(⟨0, isizeMAX, 5⟩ : Step)]] : List (List Step)).length 0)
        5 = none := by decide
    simp only [get_earliest_start, gesRun, hpass] at hok
    exact GesResult.noConfusion hok

theorem getLastD_irrel : ∀ (l : List Step) (x y : Step), l ≠ [] →
    l.getLastD x = l.getLastD y := by
  intro l
  induction l with
  | nil => intro x y h; exact absurd rfl h
  | cons a t ih =>
    intro x y _
    cases t with
    | nil => rfl
    | cons b r =>
      show (b :: r).getLastD a = (b :: r).getLastD a
      rfl

theorem getLastD_cons_of_ne_nil {a : Step} {t : List Step} (h : t ≠ []) (d : Step) :
    (a :: t).getLastD d = t.getLastD d := by
  rw [List.getLastD_cons]
  exact getLastD_irrel t a d h

theorem chainAny_drop : ∀ (l : List Step) (k : ℕ), chainAny l = true →
    chainAny (l.drop k) = true := by
  intro l
  induction l with
  | nil => intro k _; simp; rfl
  | cons a t ih =>
    intro k h
    cases k with
    | zero => exact h
    | succ m => exact ih m (chainAny_tail h)

theorem getLastD_drop : ∀ (l : List Step) (k : ℕ), k < l.length →
    (l.drop k).getLastD ⟨0, 0, 0⟩ = l.getLastD ⟨0, 0, 0⟩ := by
  intro l
  induction l with
  | nil => intro k h; simp at h
  | cons a t ih =>
    intro k h
    cases k with
    | zero => rfl
    | succ m =>
      have hm : m < t.length := by simpa using h
      have htne : t ≠ [] := by
        intro hc
        rw [hc] at hm
        simp at hm
      show (t.drop m).getLastD ⟨0, 0, 0⟩ = (a :: t).getLastD ⟨0, 0, 0⟩
      rw [ih m hm, getLastD_cons_of_ne_nil htne]

theorem lastStopD_drop {l : List Step} {k : ℕ} (h : k < l.length) :
    lastStopD (l.drop k) 0 = lastStopD l 0 := by
  show ((l.drop k).getLastD ⟨0, 0, 0⟩).stop = (l.getLastD ⟨0, 0, 0⟩).stop
  rw [getLastD_drop l k h]

theorem drop_ne_nil {l : List Step} {k : ℕ} (h : k < l.length) : l.drop k ≠ [] := by
  intro hc
  have := List.length_drop k l
  rw [hc] at this
  simp at this
  omega

theorem headStart_le_lastStart : ∀ (l : List Step), chainAny l = true → l ≠ [] →
    headStartD l ≤ (l.getLastD ⟨0, 0, 0⟩).start := by
  intro l
  induction l with
  | nil => intro _ h; exact absurd rfl h
  | cons a t ih =>
    intro h _
    cases t with
    | nil => simp [headStartD, List.getLastD]
    | cons b r =>
      have h1 := ih (chainAny_tail h) (by simp)
      have h2 := chainAny_head_lt h
      have h3 := chainAny_link h
      rw [getLastD_cons_of_ne_nil (by simp)]
      simp only [headStartD, List.headD] at h1 ⊢
      omega

theorem headStartD_drop_le {l : List Step} {k : ℕ} (hc : chainAny l = true)
    (h : k < l.length) : headStartD (l.drop k) ≤ (l.getLastD ⟨0, 0, 0⟩).start := by
  have := headStart_le_lastStart (l.drop k) (chainAny_drop l k hc) (drop_ne_nil h)
  rwa [getLastD_drop l k h] at this

theorem headD_drop_last : ∀ (l : List Step), l ≠ [] →
    (l.drop (l.length - 1)).headD ⟨0, 0, 0⟩ = l.getLastD ⟨0, 0, 0⟩ := by
  intro l
  induction l with
  | nil => intro h; exact absurd rfl h
  | cons a t ih =>
    intro _
    cases t with
    | nil => rfl
    | cons b r =>
      have h1 := ih (by simp)
      show ((b :: r).drop ((b :: r).length - 1)).headD ⟨0, 0, 0⟩ = _
      rw [h1]
      exact (getLastD_cons_of_ne_nil (by simp) _).symm

theorem head?_drop {l : List Step} {k : ℕ} (h : k < l.length) :
    (l.drop k).head? = some ((l.drop k).headD ⟨0, 0, 0⟩) := by
  have hne := drop_ne_nil h
  cases hd : l.drop k with
  | nil => exact absurd hd hne
  | cons x xs => rfl

theorem gesFind_some : ∀ (l : List Step) (e c : Int), l ≠ [] → chainAny l = true →
    lastStopD l 0 = isizeMAX → c ≤ (l.getLastD ⟨0, 0, 0⟩).rem_capacity →
    e < isizeMAX →
    ∃ p, gesFind e c l = some p ∧ p < l.length ∧
      e < headStopD (l.drop p) ∧
      c ≤ ((l.drop p).headD ⟨0, 0, 0⟩).rem_capacity := by
  intro l
  induction l with
  | nil => intro e c h; exact absurd rfl h
  | cons a t ih =>
    intro e c _ hch hlast hcap he
    by_cases hfail : a.stop ≤ e ∨ a.rem_capacity < c
    · have htne : t ≠ [] := by
        intro hc
        subst hc
        have h1 : a.stop = isizeMAX := by
          simpa [lastStopD, List.getLastD] using hlast
        have h2 : c ≤ a.rem_capacity := by
          simpa [List.getLastD] using hcap
        rcases hfail with h | h <;> omega
      have hlast2 : lastStopD t 0 = isizeMAX := by
        obtain ⟨b, r, rfl⟩ := List.exists_cons_of_ne_nil htne
        rwa [lastStopD_cons] at hlast
      have hcap2 : c ≤ (t.getLastD ⟨0, 0, 0⟩).rem_capacity := by
        rwa [getLastD_cons_of_ne_nil htne] at hcap
      obtain ⟨p, hp, hplt, hstop, hcp⟩ := ih e c htne (chainAny_tail hch) hlast2 hcap2 he
      refine ⟨p + 1, ?_, by simpa using hplt, hstop, hcp⟩
      unfold gesFind
      rw [if_pos hfail, hp]
      rfl
    · push_neg at hfail
      refine ⟨0, ?_, by simp, ?_, ?_⟩
      · unfold gesFind
        rw [if_neg (by push_neg; exact hfail)]
      · simpa [headStopD, List.headD] using hfail.1
      · simpa [List.headD] using hfail.2

theorem satAdd_nonneg {a b : Int} (ha : 0 ≤ a) (hb : 0 ≤ b) : 0 ≤ satAdd a b := by
  unfold satAdd isizeMAX isizeMIN
  omega

theorem satAdd_ge_right {a b dur : Int} (ha : 0 ≤ a) (hd : dur ≤ b)
    (hdM : dur ≤ isizeMAX) : dur ≤ satAdd a b := by
  unfold satAdd
  have : isizeMIN ≤ isizeMAX := by unfold isizeMIN isizeMAX; omega
  omega

theorem gesCumul_ok : ∀ (l : List Step) (e dur c acc : Int), l ≠ [] →
    chainAny l = true → lastStopD l 0 = isizeMAX →
    c ≤ (l.getLastD ⟨0, 0, 0⟩).rem_capacity →
    e < headStopD l → 0 ≤ acc → 0 ≤ e →
    max ((l.getLastD ⟨0, 0, 0⟩).start) e + dur ≤ isizeMAX →
    ∃ b j, gesCumul e dur c acc l = some (b, j) ∧
      (b = false → j < l.length ∧
        ((l.drop j).headD ⟨0, 0, 0⟩).rem_capacity < c) := by
  intro l
  induction l with
  | nil => intro e dur c acc h; exact absurd rfl h
  | cons a t ih =>
    intro e dur c acc _ hch hlast hcap hestop hacc he hbound
    cases t with
    | nil =>
      have hcapa : c ≤ a.rem_capacity := by simpa [List.getLastD] using hcap
      have hstopa : a.stop = isizeMAX := by
        simpa [lastStopD, List.getLastD] using hlast
      have hstarta : max a.start e + dur ≤ isizeMAX := by
        simpa [List.getLastD] using hbound
      refine ⟨true, 0, ?_, by simp⟩
      unfold gesCumul
      rw [if_pos hcapa]
      have htime : dur ≤ a.stop - max a.start e := by omega
      have hdM : dur ≤ isizeMAX := by omega
      rw [if_pos (satAdd_ge_right hacc htime hdM)]
    | cons b r =>
      have hlast2 : lastStopD (b :: r) 0 = isizeMAX := by rwa [lastStopD_cons] at hlast
      have hcap2 : c ≤ ((b :: r).getLastD ⟨0, 0, 0⟩).rem_capacity := by
        rwa [getLastD_cons_of_ne_nil (by simp)] at hcap
      have hbound2 : max (((b :: r).getLastD ⟨0, 0, 0⟩).start) e + dur ≤ isizeMAX := by
        rwa [getLastD_cons_of_ne_nil (by simp)] at hbound
      have hlink := chainAny_link hch
      have halt := chainAny_head_lt hch
      have hblt := chainAny_head_lt (chainAny_tail hch)
      have hestopa : e < a.stop := by simpa [headStopD, List.headD] using hestop
      by_cases hcapa : a.rem_capacity ≥ c
      · have hacc2 : 0 ≤ satAdd acc (a.stop - max a.start e) := by
          apply satAdd_nonneg hacc
          omega
        by_cases hdur : satAdd acc (a.stop - max a.start e) ≥ dur
        · refine ⟨true, 0, ?_, by simp⟩
          unfold gesCumul
          rw [if_pos hcapa, if_pos hdur]
        · obtain ⟨b2, j, hj, himpl⟩ := ih e dur c (satAdd acc (a.stop - max a.start e))
            (by simp) (chainAny_tail hch) hlast2 hcap2
            (by simp only [headStopD, List.headD]; omega) hacc2 he hbound2
          refine ⟨b2, j + 1, ?_, ?_⟩
          · unfold gesCumul
            rw [if_pos hcapa, if_neg hdur, hj]
          · intro hb
            obtain ⟨h1, h2⟩ := himpl hb
            exact ⟨by simpa using h1, h2⟩
      · refine ⟨false, 0, ?_, ?_⟩
        · unfold gesCumul
          rw [if_neg hcapa]
        · intro _
          refine ⟨by simp, ?_⟩
          simpa [List.headD] using not_le.mp hcapa

theorem gesResourceAux_some : ∀ (fuel : ℕ) (l : List Step) (e dur c : Int),
    l ≠ [] → chainAny l = true → lastStopD l 0 = isizeMAX →
    c ≤ (l.getLastD ⟨0, 0, 0⟩).rem_capacity →
    0 ≤ e → e < isizeMAX → e + dur ≤ isizeMAX →
    (l.getLastD ⟨0, 0, 0⟩).start + dur ≤ isizeMAX →
    l.length < fuel →
    ∃ p, gesResourceAux e dur c fuel l = some p ∧ p < l.length ∧
      e < headStopD (l.drop p) ∧
      c ≤ ((l.drop p).headD ⟨0, 0, 0⟩).rem_capacity := by
  intro fuel
  induction fuel with
  | zero => intro l e dur c _ _ _ _ _ _ _ _ hlen; omega
  | succ fuel ih =>
    intro l e dur c hne hch hlast hcap he0 heM hedur hlstart hlen
    obtain ⟨p, hfind, hplt, hpstop, hpcap⟩ := gesFind_some l e c hne hch hlast hcap heM
    have hdne : l.drop p ≠ [] := drop_ne_nil hplt
    have hdch : chainAny (l.drop p) = true := chainAny_drop l p hch
    have hdlast : lastStopD (l.drop p) 0 = isizeMAX := (lastStopD_drop hplt).trans hlast
    have hdcap : c ≤ ((l.drop p).getLastD ⟨0, 0, 0⟩).rem_capacity := by
      rw [getLastD_drop l p hplt]; exact hcap
    have hdbound : max (((l.drop p).getLastD ⟨0, 0, 0⟩).start) e + dur ≤ isizeMAX := by
      rw [getLastD_drop l p hplt]
      omega
    obtain ⟨b, j, hcum, himpl⟩ := gesCumul_ok (l.drop p) e dur c 0 hdne hdch hdlast
      hdcap hpstop (le_refl 0) he0 hdbound
    cases b with
    | true =>
      refine ⟨p, ?_, hplt, hpstop, hpcap⟩
      simp only [gesResourceAux, hfind, hcum]
    | false =>
      obtain ⟨hjlt, hjcap⟩ := himpl rfl
      have hdd : (l.drop p).drop j = l.drop (p + j) := List.drop_drop j p l
      have hpjlen : (l.drop p).length = l.length - p := List.length_drop p l
      have hpj : p + j < l.length := by omega
      have hjcap2 : ((l.drop (p + j)).headD ⟨0, 0, 0⟩).rem_capacity < c := by
        rw [← hdd]
        exact hjcap
      have hnotlast : p + j + 1 < l.length := by
        by_contra hge
        have heq : p + j = l.length - 1 := by omega
        rw [heq, headD_drop_last l hne] at hjcap2
        omega
      have hl2len : (l.drop (p + j + 1)).length = l.length - (p + j + 1) :=
        List.length_drop (p + j + 1) l
      have hl2ne : l.drop (p + j + 1) ≠ [] := drop_ne_nil hnotlast
      have hl2ch := chainAny_drop l (p + j + 1) hch
      have hl2last := (lastStopD_drop hnotlast).trans hlast
      have hl2cap : c ≤ ((l.drop (p + j + 1)).getLastD ⟨0, 0, 0⟩).rem_capacity := by
        rw [getLastD_drop l (p + j + 1) hnotlast]; exact hcap
      have hl2start :
          ((l.drop (p + j + 1)).getLastD ⟨0, 0, 0⟩).start + dur ≤ isizeMAX := by
        rw [getLastD_drop l (p + j + 1) hnotlast]; exact hlstart
      have hl2fuel : (l.drop (p + j + 1)).length < fuel := by omega
      obtain ⟨p2, hrec, hp2lt, hp2stop, hp2cap⟩ := ih (l.drop (p + j + 1)) e dur c
        hl2ne hl2ch hl2last hl2cap he0 heM hedur hl2start hl2fuel
      have hdd2 : (l.drop (p + j + 1)).drop p2 = l.drop (p2 + (p + j + 1)) := by
        rw [List.drop_drop]
        congr 1
        omega
      refine ⟨p2 + (p + j + 1), ?_, ?_, ?_, ?_⟩
      · simp only [gesResourceAux, hfind, hcum]
        rw [hrec]
        rfl
      · omega
      · rwa [hdd2] at hp2stop
      · rwa [hdd2] at hp2cap

theorem headStartD_lt_stop {l : List Step} (hc : chainAny l = true) (hne : l ≠ []) :
    headStartD l < headStopD l := by
  cases l with
  | nil => exact absurd rfl hne
  | cons a t =>
    have := chainAny_head_lt hc
    simpa [headStartD, headStopD, List.headD] using this

theorem gesFoldl_seed_le : ∀ (R : List (List Step × Int)) (a : Int),
    a ≤ R.foldl (fun acc r => max acc ((r.1.getLastD ⟨0, 0, 0⟩).start)) a := by
  intro R
  induction R with
  | nil => intro a; exact le_refl a
  | cons x t ih =>
    intro a
    rw [List.foldl_cons]
    exact le_trans (le_max_left _ _) (ih _)

theorem gesFoldl_mono : ∀ (R : List (List Step × Int)) (a b : Int), a ≤ b →
    R.foldl (fun acc r => max acc ((r.1.getLastD ⟨0, 0, 0⟩).start)) a ≤
    R.foldl (fun acc r => max acc ((r.1.getLastD ⟨0, 0, 0⟩).start)) b := by
  intro R
  induction R with
  | nil => intro a b h; exact h
  | cons x t ih =>
    intro a b h
    rw [List.foldl_cons, List.foldl_cons]
    exact ih _ _ (max_le_max h (le_refl _))

theorem gesBound_tail_le (x : List Step × Int) (R : List (List Step × Int)) :
    gesBound R ≤ gesBound (x :: R) := by
  unfold gesBound
  rw [List.foldl_cons]
  exact gesFoldl_mono R 0 (max 0 _) (le_max_left 0 _)

theorem gesBound_head_le (x : List Step × Int) (R : List (List Step × Int)) :
    (x.1.getLastD ⟨0, 0, 0⟩).start ≤ gesBound (x :: R) := by
  unfold gesBound
  rw [List.foldl_cons]
  exact le_trans (le_max_right 0 _) (gesFoldl_seed_le R _)

theorem gesPass_ok : ∀ (R : List (List Step × Int)) (ixs : List ℕ) (dur e : Int),
    List.Forall₂ (ResInv dur) R ixs →
    0 ≤ e → e < isizeMAX → e + dur ≤ isizeMAX →
    ∃ ixs2 e2 m, gesPass dur R ixs e = some (ixs2, e2, m) ∧
      List.Forall₂ (ResInv dur) R ixs2 ∧
      e ≤ e2 ∧ 0 ≤ e2 ∧ e2 < isizeMAX ∧ e2 + dur ≤ isizeMAX ∧
      (m = false → e2 = e) ∧
      (m = true → e < e2 ∧ e2 ≤ gesBound R) := by
  intro R ixs dur e hF
  induction hF with
  | nil =>
    intro he0 heM hedur
    exact ⟨[], e, false, rfl, List.Forall₂.nil, le_refl e, he0, heM, hedur,
      fun _ => rfl, fun hm => absurd hm (by decide)⟩
  | @cons r ix R2 ixs2 hr hrest ih =>
    intro he0 heM hedur
    obtain ⟨steps, c⟩ := r
    by_cases hc : c = 0
    · subst hc
      obtain ⟨idxs, e2, m, hrec, hF2, hee, h02, h2M, h2d, hmf, hmt⟩ := ih he0 heM hedur
      refine ⟨ix :: idxs, e2, m, ?_, List.Forall₂.cons hr hF2, hee, h02, h2M, h2d,
        hmf, ?_⟩
      · show gesPass dur ((steps, 0) :: R2) (ix :: ixs2) e = _
        have hstep : gesPass dur ((steps, 0) :: R2) (ix :: ixs2) e =
            (match gesPass dur R2 ixs2 e with
              | none => none
              | some (idxs, e2, m) => some (ix :: idxs, e2, m)) := rfl
        rw [hstep, hrec]
      · intro hm
        obtain ⟨h1, h2⟩ := hmt hm
        exact ⟨h1, le_trans h2 (gesBound_tail_le _ _)⟩
    · rcases hr with hr0 | ⟨hixlt, hch, hlast, hcap, hlstart⟩
      · exact absurd hr0 hc
      replace hixlt : ix < steps.length := hixlt
      replace hch : chainAny steps = true := hch
      replace hlast : lastStopD steps 0 = isizeMAX := hlast
      replace hcap : c ≤ (steps.getLastD ⟨0, 0, 0⟩).rem_capacity := hcap
      replace hlstart : (steps.getLastD ⟨0, 0, 0⟩).start + dur ≤ isizeMAX := hlstart
      have hdne := drop_ne_nil hixlt
      have hdch := chainAny_drop steps ix hch
      have hdlast := (lastStopD_drop hixlt).trans hlast
      have hdcap : c ≤ ((steps.drop ix).getLastD ⟨0, 0, 0⟩).rem_capacity := by
        rw [getLastD_drop steps ix hixlt]; exact hcap
      have hdstart : ((steps.drop ix).getLastD ⟨0, 0, 0⟩).start + dur ≤ isizeMAX := by
        rw [getLastD_drop steps ix hixlt]; exact hlstart
      obtain ⟨p, hres, hplt, hpstop, hpcap⟩ :=
        gesResourceAux_some ((steps.drop ix).length + 1) (steps.drop ix) e dur c
          hdne hdch hdlast hdcap he0 heM hedur hdstart (Nat.lt_succ_self _)
      have hreseq : gesResource e dur c (steps.drop ix) = some p := hres
      have hdroplen : (steps.drop ix).length = steps.length - ix :=
        List.length_drop ix steps
      have hixp : ix + p < steps.length := by omega
      have hdd : (steps.drop ix).drop p = steps.drop (ix + p) := List.drop_drop p ix steps
      have hhead : (steps.drop (ix + p)).head? =
          some ((steps.drop (ix + p)).headD ⟨0, 0, 0⟩) := head?_drop hixp
      set st := (steps.drop (ix + p)).headD ⟨0, 0, 0⟩ with hst
      have hstcap : c ≤ st.rem_capacity := by rw [hst, ← hdd]; exact hpcap
      have hststop : e < st.stop := by
        rw [hdd] at hpstop
        exact hpstop
      have hstartlt : st.start < st.stop := by
        rw [hst]
        exact headStartD_lt_stop (chainAny_drop steps (ix + p) hch) (drop_ne_nil hixp)
      have hstople : st.stop ≤ isizeMAX := by
        have h1 := headStop_le_last (steps.drop (ix + p))
          (chainAny_drop steps (ix + p) hch) (drop_ne_nil hixp)
        rw [(lastStopD_drop hixp).trans hlast] at h1
        rw [hst]
        exact h1
      have hstartle : st.start ≤ (steps.getLastD ⟨0, 0, 0⟩).start := by
        rw [hst]
        exact headStartD_drop_le hch hixp
      have hrinv : ResInv dur (steps, c) (ix + p) :=
        Or.inr ⟨hixp, hch, hlast, hcap, hlstart⟩
      by_cases hmove : st.start > e
      · refine ⟨(ix + p) :: ixs2, st.start, true, ?_,
          List.Forall₂.cons hrinv hrest, le_of_lt hmove, by omega, by omega, by omega,
          fun hm => absurd hm (by decide),
          fun _ => ⟨hmove, le_trans hstartle (gesBound_head_le _ _)⟩⟩
        simp only [gesPass]
        rw [if_neg hc]
        simp only [hreseq, hhead]
        rw [if_pos hmove]
      · obtain ⟨idxs, e2, m, hrec, hF2, hee, h02, h2M, h2d, hmf, hmt⟩ := ih he0 heM hedur
        refine ⟨(ix + p) :: idxs, e2, m, ?_, List.Forall₂.cons hrinv hF2, hee, h02,
          h2M, h2d, hmf, ?_⟩
        · simp only [gesPass]
          rw [if_neg hc]
          simp only [hreseq, hhead]
          rw [if_neg hmove]
          simp only [hrec]
        · intro hm
          obtain ⟨h1, h2⟩ := hmt hm
          exact ⟨h1, le_trans h2 (gesBound_tail_le _ _)⟩

theorem gesRun_ok : ∀ (n : ℕ) (dur : Int) (R : List (List Step × Int))
    (ixs : List ℕ) (e : Int),
    (gesBound R + 1 - e).toNat ≤ n →
    List.Forall₂ (ResInv dur) R ixs →
    0 ≤ e → e < isizeMAX → e + dur ≤ isizeMAX →
    ∃ fuel v, gesRun dur R fuel ixs e = .ok v ∧ e ≤ v := by
  intro n
  induction n with
  | zero =>
    intro dur R ixs e hmeas hF he0 heM hedur
    obtain ⟨ixs2, e2, m, hpass, hF2, hee, h02, h2M, h2d, hmf, hmt⟩ :=
      gesPass_ok R ixs dur e hF he0 heM hedur
    cases m with
    | false =>
      refine ⟨1, e2, ?_, hee⟩
      show gesRun dur R (0 + 1) ixs e = GesResult.ok e2
      simp only [gesRun, hpass]
      rfl
    | true =>
      exfalso
      obtain ⟨h1, h2⟩ := hmt rfl
      omega
  | succ n ih =>
    intro dur R ixs e hmeas hF he0 heM hedur
    obtain ⟨ixs2, e2, m, hpass, hF2, hee, h02, h2M, h2d, hmf, hmt⟩ :=
      gesPass_ok R ixs dur e hF he0 heM hedur
    cases m with
    | false =>
      refine ⟨1, e2, ?_, hee⟩
      show gesRun dur R (0 + 1) ixs e = GesResult.ok e2
      simp only [gesRun, hpass]
      rfl
    | true =>
      obtain ⟨h1, h2⟩ := hmt rfl
      have hmeas2 : (gesBound R + 1 - e2).toNat ≤ n := by omega
      obtain ⟨fuel, v, hrun, hev⟩ := ih dur R ixs2 e2 hmeas2 hF2 h02 h2M h2d
      refine ⟨fuel + 1, v, ?_, le_trans hee hev⟩
      show gesRun dur R (fuel + 1) ixs e = GesResult.ok v
      simp only [gesRun, hpass]
      simpa using hrun

theorem forall₂_replicate {P : (List Step × Int) → ℕ → Prop} :
    ∀ (L : List (List Step × Int)), (∀ x ∈ L, P x 0) →
    List.Forall₂ P L (List.replicate L.length 0) := by
  intro L
  induction L with
  | nil => intro _; exact List.Forall₂.nil
  | cons a t ih =>
    intro h
    rw [List.length_cons, List.replicate_succ]
    exact List.Forall₂.cons (h a (by simp)) (ih fun x hx => h x (by simp [hx]))

/-- C10: amended statement.  `State::get_earliest_start` can index out of
bounds (see the counterexample theorem), but under the well-formedness
conditions the solver maintains — at least as many consumption entries as
resources, every resource either unused by the job or with an index-0
invariant (nonempty contiguous profile ending in a step that reaches
`isize::MAX` with remaining capacity at least the job's consumption and
whose last start leaves room for the duration), and a candidate `earliest`
with `0 ≤ earliest < isize::MAX` and `earliest + duration ≤ isize::MAX` —
the outer fixpoint loop terminates without any out-of-bounds access and
returns a start time at least `earliest`. -/
theorem get_earliest_start_amended
    (profile : List (List Step)) (earliest duration : Int) (consumption : List Int)
    (hlen : profile.length ≤ consumption.length)
    (hres : ∀ pr ∈ profile.zip consumption, ResInv duration pr 0)
    (he0 : 0 ≤ earliest) (heM : earliest < isizeMAX)
    (hedur : earliest + duration ≤ isizeMAX) :
    GesTerminatesGE profile earliest duration consumption := by
  have hzlen : (profile.zip consumption).length = profile.length := by
    rw [List.length_zip]
    omega
  have hF : List.Forall₂ (ResInv duration) (profile.zip consumption)
      (List.replicate profile.length 0) := by
    rw [← hzlen]
    exact forall₂_replicate _ hres
  obtain ⟨fuel, v, hrun, hev⟩ :=
    gesRun_ok ((gesBound (profile.zip consumption) + 1 - earliest).toNat)
      duration (profile.zip consumption) (List.replicate profile.length 0) earliest
      (le_refl _) hF he0 heM hedur
  exact ⟨fuel, v, hrun, hev⟩

/-- Witness for the amended C10 theorem: a single resource whose profile
is the unconstrained step `[0, isize::MAX)` with capacity 5, a job with
consumption 3 and duration 4, and candidate earliest 5. -/
theorem get_earliest_start_amended_witness :
    GesTerminatesGE [[⟨0, isizeMAX, 5⟩]] 5 4 [3] :=
  get_earliest_start_amended [[⟨0, isizeMAX, 5⟩]] 5 4 [3]
    (by decide)
    (by
      intro pr hpr
      have hz : ([[(⟨0, isizeMAX, 5⟩ : Step)]].zip ([3] : List Int)) =
          [([⟨0, isizeMAX, 5⟩], 3)] := rfl
      rw [hz, List.mem_singleton] at hpr
      subst hpr
      exact Or.inr ⟨by decide, by decide, by decide, by decide, by decide⟩)
    (by decide) (by decide) (by decide)

end Rcpsp
